import Mathlib

/-!
# DuraLog: a shallow embedding of the duralog append-only log in Lean 4

This development embeds the record codec, replay reader, committer and
lifecycle façade of `src/duralog.py` and proves/refutes the specification
claims about them.

Modelling conventions:
* bytes are `Nat` (with `< 256` hypotheses where the source guarantees it),
* Python `bytes` values are `List Nat`,
* Python strings are `List Nat` of Unicode scalar values,
* JSON values (the orjson data model, floats excluded) are the inductive
  `Json`; `jsonDumps`/`jsonLoads` model `orjson.dumps`/`orjson.loads`
  restricted to that domain (orjson emits compact UTF-8 output with JSON
  escapes; control characters are modelled with `\u00XX` escapes),
* fallible operations return `Except PyErr` mirroring the exception classes
  actually raised by the source, including which exceptions `replay`'s
  `except (DuraLogCorruptionError, json.JSONDecodeError)` clause catches,
* file I/O is modelled on immutable byte lists: a read at position `pos` of
  `n` bytes returns `(file.drop pos).take n` and advances the position by the
  number of bytes actually obtained, exactly like a POSIX read on a regular
  file.
-/

namespace DuraLog

/-! ## Little-endian 32-bit packing (`struct.pack "<IBI"`) -/

/-- The 4 little-endian bytes of a 32-bit unsigned value, as produced by
`struct.pack "<I"`. -/
def le32 (n : Nat) : List Nat :=
  [n % 256, n / 256 % 256, n / 65536 % 256, n / 16777216 % 256]

/-- Reassemble a 32-bit value from 4 little-endian bytes, as done by
`struct.unpack "<I"`.  (The source only ever unpacks buffers of at least
4 bytes; other shapes are irrelevant and map to 0.) -/
def unpackLe32 : List Nat → Nat
  | b0 :: b1 :: b2 :: b3 :: _ => b0 + 256 * b1 + 65536 * b2 + 16777216 * b3
  | _ => 0


/-! ## CRC-32 (`zlib.crc32`), bitwise reflected algorithm -/

/-- The reflected CRC-32 (IEEE 802.3) polynomial. -/
def crcPoly : Nat := 0xEDB88320

/-- One bit step of the reflected CRC-32 state update. -/
def crcBit (s : Nat) : Nat :=
  if s % 2 = 1 then (s / 2) ^^^ crcPoly else s / 2

/-- Process one input byte: xor it into the state, then run 8 bit steps. -/
def crcByteStep (s b : Nat) : Nat := crcBit^[8] (s ^^^ b)

/-- `zlib.crc32` over a byte list (initial value 0). -/
def crc32 (l : List Nat) : Nat :=
  (l.foldl crcByteStep 0xFFFFFFFF) ^^^ 0xFFFFFFFF

/-! ## UTF-8 codec (`str.encode "utf-8"` / `bytes.decode "utf-8"`) -/

/-- A Unicode scalar value: below 0x110000 and not a surrogate. -/
def isScalar (c : Nat) : Bool := c < 0x110000 && !(0xD800 ≤ c && c ≤ 0xDFFF)

/-- A Python string all of whose code points are Unicode scalar values
(the only strings `str.encode` accepts). -/
def validStr (s : List Nat) : Bool := s.all isScalar

/-- UTF-8 encoding of one scalar value (CPython's encoder). -/
def utf8EncodeChar (c : Nat) : List Nat :=
  if c < 0x80 then [c]
  else if c < 0x800 then [0xC0 + c / 64, 0x80 + c % 64]
  else if c < 0x10000 then [0xE0 + c / 4096, 0x80 + c / 64 % 64, 0x80 + c % 64]
  else [0xF0 + c / 262144, 0x80 + c / 4096 % 64, 0x80 + c / 64 % 64, 0x80 + c % 64]

/-- `str.encode "utf-8"`. -/
def utf8Encode (s : List Nat) : List Nat := (s.map utf8EncodeChar).flatten

/-- Is `b` a UTF-8 continuation byte? -/
def isCont (b : Nat) : Bool := 0x80 ≤ b && b ≤ 0xBF

/-- Strict UTF-8 decoding of a single character from the head of a byte list.
Returns the scalar value and the number of bytes consumed.  Mirrors CPython's
strict decoder: rejects continuation-byte errors, overlong forms, surrogates
and values above 0x10FFFF.  Missing trailing bytes are modelled by the
out-of-range default 256, which fails every continuation check, exactly as a
truncated read does. -/
def utf8DecodeChar : List Nat → Option (Nat × Nat)
  | [] => none
  | b0 :: rest =>
    let b1 := rest.getD 0 256
    let b2 := rest.getD 1 256
    let b3 := rest.getD 2 256
    if b0 < 0x80 then some (b0, 1)
    else if b0 < 0xC2 then none
    else if b0 < 0xE0 then
      if isCont b1 then some ((b0 - 0xC0) * 64 + (b1 - 0x80), 2) else none
    else if b0 < 0xF0 then
      if (if b0 = 0xE0 then 0xA0 ≤ b1 && b1 ≤ 0xBF
          else if b0 = 0xED then 0x80 ≤ b1 && b1 ≤ 0x9F
          else isCont b1) && isCont b2 then
        some ((b0 - 0xE0) * 4096 + (b1 - 0x80) * 64 + (b2 - 0x80), 3)
      else none
    else if b0 < 0xF5 then
      if (if b0 = 0xF0 then 0x90 ≤ b1 && b1 ≤ 0xBF
          else if b0 = 0xF4 then 0x80 ≤ b1 && b1 ≤ 0x8F
          else isCont b1) && isCont b2 && isCont b3 then
        some ((b0 - 0xF0) * 262144 + (b1 - 0x80) * 4096 + (b2 - 0x80) * 64
                + (b3 - 0x80), 4)
      else none
    else none

/-- Fuelled whole-buffer UTF-8 decoding loop. -/
def utf8DecodeLoop : Nat → List Nat → Option (List Nat)
  | _, [] => some []
  | 0, _ :: _ => none
  | fuel + 1, b :: rest =>
    (utf8DecodeChar (b :: rest)).bind fun ck =>
      (utf8DecodeLoop fuel ((b :: rest).drop ck.2)).map (ck.1 :: ·)

/-- `bytes.decode "utf-8"` (strict): `some` on valid UTF-8, `none` otherwise. -/
def utf8Decode (s : List Nat) : Option (List Nat) := utf8DecodeLoop s.length s

/-! ## JSON model (`orjson.dumps` / `orjson.loads`)

The orjson data model restricted to the exactly-representable values:
objects with string keys, arrays, strings, 64-bit-range integers, booleans
and null.  Floats are IEEE-754 and are not modelled. -/

inductive Json where
  | null
  | bool (b : Bool)
  | num (n : Int)
  | str (s : List Nat)
  | arr (elems : List Json)
  | obj (kvs : List (List Nat × Json))

/-- Decimal digit bytes of a natural number, most significant first. -/
def natDigits (n : Nat) : List Nat :=
  if h : n < 10 then [48 + n] else natDigits (n / 10) ++ [48 + n % 10]
termination_by n
decreasing_by omega

/-- Decimal serialization of a (64-bit-range) integer, as orjson emits it. -/
def intBytes (n : Int) : List Nat :=
  if n < 0 then 45 :: natDigits n.natAbs else natDigits n.toNat

/-- Lowercase hex digit byte. -/
def hexDigit (d : Nat) : Nat := if d < 10 then 48 + d else 87 + d

/-- JSON string escaping of one character: `\"`, `\\`, `\u00XX` for control
characters, raw UTF-8 bytes otherwise. -/
def escChar (c : Nat) : List Nat :=
  if c = 34 then [92, 34]
  else if c = 92 then [92, 92]
  else if c < 32 then [92, 117, 48, 48, hexDigit (c / 16), hexDigit (c % 16)]
  else utf8EncodeChar c

/-- The bytes of a JSON string literal (quote, escaped content, quote). -/
def strBytes (s : List Nat) : List Nat := 34 :: (s.map escChar).flatten ++ [34]

mutual

/-- `orjson.dumps` on the modelled domain: compact output, no whitespace. -/
def jsonDumps : Json → List Nat
  | .null => [110, 117, 108, 108]
  | .bool true => [116, 114, 117, 101]
  | .bool false => [102, 97, 108, 115, 101]
  | .num n => intBytes n
  | .str s => strBytes s
  | .arr xs => 91 :: dumpsElems xs ++ [93]
  | .obj kvs => 123 :: dumpsMembers kvs ++ [125]

/-- Comma-separated serialization of array elements. -/
def dumpsElems : List Json → List Nat
  | [] => []
  | [x] => jsonDumps x
  | x :: y :: xs => jsonDumps x ++ 44 :: dumpsElems (y :: xs)

/-- Comma-separated serialization of object members (`"key":value`). -/
def dumpsMembers : List (List Nat × Json) → List Nat
  | [] => []
  | [(k, v)] => strBytes k ++ 58 :: jsonDumps v
  | (k, v) :: m :: kvs => strBytes k ++ 58 :: jsonDumps v ++ 44 :: dumpsMembers (m :: kvs)

end

mutual

/-- Well-formedness of a modelled JSON value: strings contain only Unicode
scalar values and integers are in orjson's accepted 64-bit range. -/
def wfJson : Json → Bool
  | .null => true
  | .bool _ => true
  | .num n => (-(9223372036854775808 : Int) ≤ n && n < 18446744073709551616 : Bool)
  | .str s => validStr s
  | .arr xs => wfElems xs
  | .obj kvs => wfMembers kvs

def wfElems : List Json → Bool
  | [] => true
  | x :: xs => wfJson x && wfElems xs

def wfMembers : List (List Nat × Json) → Bool
  | [] => true
  | (k, v) :: kvs => validStr k && wfJson v && wfMembers kvs

end

/-! ### JSON parser (`orjson.loads` on compact documents) -/

/-- Does the input NOT begin with a decimal digit?  (A number literal
followed by such input parses unambiguously.) -/
def headNotDigit : List Nat → Bool
  | [] => true
  | b :: _ => !(48 ≤ b && b ≤ 57)

/-- Is `b` the byte of a decimal digit? -/
def isDigit (b : Nat) : Bool := 48 ≤ b && b ≤ 57

/-- Greedily parse a run of decimal digits, with accumulator. -/
def parseNatAcc : Nat → List Nat → Nat × List Nat
  | acc, [] => (acc, [])
  | acc, b :: rest =>
    if isDigit b then parseNatAcc (acc * 10 + (b - 48)) rest else (acc, b :: rest)

/-- Value of a hex digit byte. -/
def hexVal (b : Nat) : Option Nat :=
  if 48 ≤ b && b ≤ 57 then some (b - 48)
  else if 97 ≤ b && b ≤ 102 then some (b - 87)
  else if 65 ≤ b && b ≤ 70 then some (b - 55)
  else none

/-- Parse the remainder of a JSON string literal (after the opening quote):
escape sequences, `\u` escapes, and raw UTF-8.  Returns the decoded
code points and the input after the closing quote. -/
def parseStrRest : Nat → List Nat → Option (List Nat × List Nat)
  | 0, _ => none
  | _ + 1, [] => none
  | fuel + 1, b :: rest =>
    if b = 34 then some ([], rest)
    else if b = 92 then
      if rest.getD 0 256 = 34 then
        (parseStrRest fuel (rest.drop 1)).map (fun p => (34 :: p.1, p.2))
      else if rest.getD 0 256 = 92 then
        (parseStrRest fuel (rest.drop 1)).map (fun p => (92 :: p.1, p.2))
      else if rest.getD 0 256 = 47 then
        (parseStrRest fuel (rest.drop 1)).map (fun p => (47 :: p.1, p.2))
      else if rest.getD 0 256 = 98 then
        (parseStrRest fuel (rest.drop 1)).map (fun p => (8 :: p.1, p.2))
      else if rest.getD 0 256 = 102 then
        (parseStrRest fuel (rest.drop 1)).map (fun p => (12 :: p.1, p.2))
      else if rest.getD 0 256 = 110 then
        (parseStrRest fuel (rest.drop 1)).map (fun p => (10 :: p.1, p.2))
      else if rest.getD 0 256 = 114 then
        (parseStrRest fuel (rest.drop 1)).map (fun p => (13 :: p.1, p.2))
      else if rest.getD 0 256 = 116 then
        (parseStrRest fuel (rest.drop 1)).map (fun p => (9 :: p.1, p.2))
      else if rest.getD 0 256 = 117 then
        (hexVal ((rest.drop 1).getD 0 256)).bind fun v1 =>
        (hexVal ((rest.drop 1).getD 1 256)).bind fun v2 =>
        (hexVal ((rest.drop 1).getD 2 256)).bind fun v3 =>
        (hexVal ((rest.drop 1).getD 3 256)).bind fun v4 =>
        (parseStrRest fuel ((rest.drop 1).drop 4)).map
          (fun p => ((v1 * 4096 + v2 * 256 + v3 * 16 + v4) :: p.1, p.2))
      else none
    else if b < 32 then none
    else
      (utf8DecodeChar (b :: rest)).bind fun ck =>
        (parseStrRest fuel ((b :: rest).drop ck.2)).map (fun p => (ck.1 :: p.1, p.2))

/-- Try to strip an expected literal byte sequence from the input. -/
def stripPref : List Nat → List Nat → Option (List Nat)
  | [], s => some s
  | _ :: _, [] => none
  | l :: ls, b :: bs => if b = l then stripPref ls bs else none

mutual

/-- Parse one JSON value from the head of the input.  The fuel only bounds
recursion depth through arrays and objects; `jsonLoads` supplies enough. -/
def parseJsonValue : Nat → List Nat → Option (Json × List Nat)
  | 0, _ => none
  | _ + 1, [] => none
  | fuel + 1, b :: rest =>
    if b = 110 then
      (stripPref [117, 108, 108] rest).map (fun r => (.null, r))
    else if b = 116 then
      (stripPref [114, 117, 101] rest).map (fun r => (.bool true, r))
    else if b = 102 then
      (stripPref [97, 108, 115, 101] rest).map (fun r => (.bool false, r))
    else if b = 34 then
      (parseStrRest (rest.length + 1) rest).map (fun p => (.str p.1, p.2))
    else if b = 91 then
      (parseArrRest fuel rest).map (fun p => (.arr p.1, p.2))
    else if b = 123 then
      (parseObjRest fuel rest).map (fun p => (.obj p.1, p.2))
    else if b = 45 then
      if isDigit (rest.getD 0 256) then
        some (.num (-((parseNatAcc 0 rest).1 : Int)), (parseNatAcc 0 rest).2)
      else none
    else if isDigit b then
      some (.num ((parseNatAcc 0 (b :: rest)).1 : Int), (parseNatAcc 0 (b :: rest)).2)
    else none

/-- Parse array elements after the opening `[`, through the closing `]`. -/
def parseArrRest : Nat → List Nat → Option (List Json × List Nat)
  | 0, _ => none
  | _ + 1, [] => none
  | fuel + 1, b :: rest =>
    if b = 93 then some ([], rest)
    else
      (parseJsonValue fuel (b :: rest)).bind fun jr =>
        if jr.2.getD 0 256 = 44 then
          (parseArrRest fuel (jr.2.drop 1)).map (fun p => (jr.1 :: p.1, p.2))
        else if jr.2.getD 0 256 = 93 then some ([jr.1], jr.2.drop 1)
        else none

/-- Parse object members after the opening `{`, through the closing `}`. -/
def parseObjRest : Nat → List Nat → Option (List (List Nat × Json) × List Nat)
  | 0, _ => none
  | _ + 1, [] => none
  | fuel + 1, b :: rest =>
    if b = 125 then some ([], rest)
    else if b = 34 then
      (parseStrRest (rest.length + 1) rest).bind fun kr =>
        if kr.2.getD 0 256 = 58 then
          (parseJsonValue fuel (kr.2.drop 1)).bind fun vr =>
            if vr.2.getD 0 256 = 44 then
              (parseObjRest fuel (vr.2.drop 1)).map
                (fun p => ((kr.1, vr.1) :: p.1, p.2))
            else if vr.2.getD 0 256 = 125 then some ([(kr.1, vr.1)], vr.2.drop 1)
            else none
        else none
    else none

end

/-- `orjson.loads` on the modelled domain: parse a complete document,
rejecting trailing bytes. -/
def jsonLoads (s : List Nat) : Option Json :=
  match parseJsonValue (s.length + 1) s with
  | some (j, []) => some j
  | _ => none

/-! ## The duralog data model -/

/-- Reasons carried by `DuraLogCorruptionError` in `_parse_log_entry`. -/
inductive CorruptReason where
  | incompleteHeader
  | shortPayload
  | checksumMismatch
  | unknownTypeFlag
deriving DecidableEq

/-- The exception classes that can escape the modelled operations.
`corruption` is `DuraLogCorruptionError` (with the frame's starting offset);
`jsonDecodeError` is `orjson.JSONDecodeError`; `unicodeDecodeError` is the
`UnicodeDecodeError` raised by `bytes.decode("utf-8")` (a plain `ValueError`,
not a duralog error class); `attributeError` is the `AttributeError` raised
by `data.encode` on non-string objects; `configurationError` is
`DuraLogConfigurationError`. -/
inductive PyErr where
  | corruption (offset : Nat) (reason : CorruptReason)
  | jsonDecodeError
  | unicodeDecodeError
  | attributeError
  | configurationError
deriving DecidableEq

/-- The exceptions caught by replay's
`except (DuraLogCorruptionError, json.JSONDecodeError)` clause. -/
def caughtByReplay : PyErr → Bool
  | .corruption _ _ => true
  | .jsonDecodeError => true
  | _ => false

/-- A valid record value: a structured map (Python `dict`) or a text string.
Python dicts are modelled as their ordered key/value association list. -/
inductive Value where
  | dict (kvs : List (List Nat × Json))
  | str (s : List Nat)

/-- Any Python object that can be handed to `append`: a valid record value
or an object of some other type (modelled by `intVal` / `noneVal`). -/
inductive PyData where
  | val (v : Value)
  | intVal (n : Int)
  | noneVal

/-- What `_parse_log_entry` can return: whatever `orjson.loads` produced for
type flag 0x01, or a decoded string for type flag 0x02. -/
inductive RVal where
  | fromJson (j : Json)
  | fromStr (s : List Nat)

/-- The decoded form a valid input value comes back as after a round trip. -/
def Value.toR : Value → RVal
  | .dict kvs => .fromJson (.obj kvs)
  | .str s => .fromStr s

/-- Well-formed value: its strings are made of Unicode scalar values and its
integers are in orjson's accepted range. -/
def wfValue : Value → Bool
  | .dict kvs => wfMembers kvs
  | .str s => validStr s

/-! ## Record codec (`_serialize_payload`, `_format_log_entry`,
`_parse_log_entry`) -/

/-- `_serialize_payload` on a valid (dict-or-str) value: the utf-8 encoded
payload and the type flag (`_TYPE_JSON = 0x01` / `_TYPE_STRING = 0x02`). -/
def serializePayloadV : Value → List Nat × Nat
  | .dict kvs => (jsonDumps (.obj kvs), 1)
  | .str s => (utf8Encode s, 2)

/-- `_serialize_payload` as invoked by the committer on an arbitrary queued
object: `isinstance(data, dict)` dispatch, then `data.encode("utf-8")`,
which raises `AttributeError` for objects that are neither dict nor str. -/
def serializePayload : PyData → Except PyErr (List Nat × Nat)
  | .val v => .ok (serializePayloadV v)
  | .intVal _ => .error .attributeError
  | .noneVal => .error .attributeError

/-- `_format_log_entry` on a valid value: `struct.pack("<IBI", payload_size,
type_flag, checksum) + payload`. -/
def formatLogEntry (v : Value) : List Nat :=
  let p := (serializePayloadV v).1
  le32 p.length ++ [(serializePayloadV v).2] ++ le32 (crc32 p) ++ p

/-- `file.read(n)` at position `pos` of an immutable byte list: returns the
bytes actually available (possibly fewer than `n`). -/
def readBytes (file : List Nat) (pos n : Nat) : List Nat :=
  (file.drop pos).take n

/-- `_parse_log_entry`, reading one frame from `file` at position `pos`.
Returns the result (decoded record or raised exception) together with the
file position after the attempted parse. -/
def parseLogEntry (file : List Nat) (pos : Nat) : Except PyErr RVal × Nat :=
  let hdr := readBytes file pos 9
  let pos1 := pos + hdr.length
  if hdr = [] then (.error (.corruption pos .incompleteHeader), pos1)
  else if hdr.length < 9 then (.error (.corruption pos .incompleteHeader), pos1)
  else
    let size := unpackLe32 (hdr.take 4)
    let flag := hdr.getD 4 0
    let chk := unpackLe32 (hdr.drop 5)
    let payload := readBytes file pos1 size
    let pos2 := pos1 + payload.length
    if payload.length < size then (.error (.corruption pos .shortPayload), pos2)
    else if crc32 payload ≠ chk then (.error (.corruption pos .checksumMismatch), pos2)
    else if flag = 1 then
      match jsonLoads payload with
      | some j => (.ok (.fromJson j), pos2)
      | none => (.error .jsonDecodeError, pos2)
    else if flag = 2 then
      match utf8Decode payload with
      | some s => (.ok (.fromStr s), pos2)
      | none => (.error .unicodeDecodeError, pos2)
    else (.error (.corruption pos .unknownTypeFlag), pos2)

/-- Flip bit `j` of the byte at index `i` (a single-bit on-disk corruption). -/
def flipByte (l : List Nat) (i j : Nat) : List Nat :=
  l.set i ((l.getD i 0) ^^^ 2 ^ j)

/-! ## Replay (`replay`) -/

/-- The body of replay's scan loop, fuelled.  Returns `none` when the fuel is
exhausted (the loop would still be running), otherwise the yielded records
together with the exception, if any, that escaped to the caller. -/
def replayLoop (file : List Nat) (snap : Nat) : Nat → Nat → Option (List RVal × Option PyErr)
  | 0, _ => none
  | fuel + 1, pos =>
    if pos < snap then
      if pos + 9 > snap then some ([], none)
      else
        match parseLogEntry file pos with
        | (.ok v, pos') => (replayLoop file snap fuel pos').map (fun p => (v :: p.1, p.2))
        | (.error e, pos') =>
          if caughtByReplay e then replayLoop file snap fuel pos'
          else some ([], some e)
    else some ([], none)

/-- `replay()` over a file whose readable content is `file`, with the size
snapshot `snap` captured at entry (the file may have grown since: `snap` can
be smaller than `file.length`).  The fuel `snap + 1` is proven sufficient
(claim C9). -/
def replay (file : List Nat) (snap : Nat) : Option (List RVal × Option PyErr) :=
  if snap = 0 then some ([], none)
  else replayLoop file snap (snap + 1) 0

/-- An incomplete (torn) frame at the end of a file: either a partial header
(fewer than 9 bytes), or a full header followed by fewer payload bytes than
its `payload_size` field announces. -/
def TornTail (torn : List Nat) : Prop :=
  torn.length < 9 ∨
  ∃ hdrt extra, torn = hdrt ++ extra ∧ hdrt.length = 9 ∧
    extra.length < unpackLe32 (hdrt.take 4)

/-! ## Producer and committer (`append`, `_commit`, `_sync_to_disk`) -/

/-- `append`: puts the record on the queue.  The source performs no type
check whatsoever (its docstring claims a `TypeError` for non-dict/str input,
but none is raised): every object is enqueued. -/
def append (queue : List PyData) (data : PyData) : Except PyErr (List PyData) :=
  .ok (queue ++ [data])

/-- `_sync_to_disk`: `file.writelines(records)` on an append-mode handle
concatenates the packed records onto the end of the file. -/
def syncToDisk (file : List Nat) (records : List (List Nat)) : List Nat :=
  file ++ records.flatten

/-- One commit cycle over a queue of valid values: drain in FIFO order,
format each, and (when the batch is nonempty) write the concatenation.
Returns the new file content and the drained (now empty) queue. -/
def commitCycle (queue : List Value) (file : List Nat) : List Nat × List Value :=
  let records := queue.map formatLogEntry
  if records = [] then (file, [])
  else (syncToDisk file records, [])

/-- Running one commit cycle per batch, starting from file content `file`. -/
def commitMany (batches : List (List Value)) (file : List Nat) : List Nat :=
  batches.foldl (fun f b => (commitCycle b f).1) file

/-! ## Lifecycle façade (`DuraLog.__new__` / `DuraLog.__init__`) -/

/-- The per-instance state established by `__init__`. -/
structure Inst where
  filePath : List Nat
  commitIntervalSeconds : Nat
  maxQueueSize : Nat
deriving DecidableEq

/-- Python truthiness of `kwargs.get("file_path")`: `None` and the empty
string are falsy. -/
def truthyFilePath : Option (List Nat) → Bool
  | none => false
  | some s => !s.isEmpty

/-- `DuraLog(*args, **kwargs)` construction: `__new__` checks only
`kwargs.get("file_path")` (a positional `file_path` is invisible to it),
then the singleton is returned or created; `__init__` returns immediately on
an already-initialized instance, ignoring all new arguments.  Returns the
instance handed back to the caller and the new value of `_instance`. -/
def construct (instBefore : Option Inst) (args : List (List Nat))
    (kwFilePath : Option (List Nat)) (interval maxQueue : Nat) :
    Except PyErr (Inst × Option Inst) :=
  if !truthyFilePath kwFilePath then .error .configurationError
  else
    match instBefore with
    | some i => .ok (i, some i)
    | none =>
      let fp := match kwFilePath with
        | some s => s
        | none => args.headD []
      let i : Inst := ⟨fp, interval, maxQueue⟩
      .ok (i, some i)

/-! # Theorems -/

theorem le32_length (n : Nat) : (le32 n).length = 4 := rfl

theorem unpackLe32_le32 (n : Nat) (h : n < 4294967296) : unpackLe32 (le32 n) = n := by
  simp only [le32, unpackLe32]
  omega

theorem le32_lt (n : Nat) : ∀ b ∈ le32 n, b < 256 := by
  intro b hb
  simp only [le32, List.mem_cons, List.not_mem_nil, or_false] at hb
  rcases hb with h | h | h | h <;> omega

/-- `le32` is injective on 32-bit values, byte by byte. -/
theorem le32_inj {m n : Nat} (hm : m < 4294967296) (hn : n < 4294967296)
    (h : le32 m = le32 n) : m = n := by
  have := congrArg unpackLe32 h
  rwa [unpackLe32_le32 m hm, unpackLe32_le32 n hn] at this

/-! ### UTF-8 round trip -/

theorem utf8EncodeChar_ne_nil (c : Nat) : utf8EncodeChar c ≠ [] := by
  unfold utf8EncodeChar
  split <;> try simp
  split <;> try simp
  split <;> simp

theorem utf8EncodeChar_length_pos (c : Nat) : 0 < (utf8EncodeChar c).length := by
  cases h : utf8EncodeChar c with
  | nil => exact absurd h (utf8EncodeChar_ne_nil c)
  | cons a l => simp

theorem isScalar_iff {c : Nat} :
    isScalar c = true ↔ c < 0x110000 ∧ ¬(0xD800 ≤ c ∧ c ≤ 0xDFFF) := by
  simp only [isScalar, Bool.and_eq_true, decide_eq_true_eq, Bool.not_eq_eq_eq_not,
    Bool.not_true, Bool.and_eq_false_iff, decide_eq_false_iff_not, not_le]
  omega

/-- Decoding one character off a buffer that starts with the encoding of a
Unicode scalar value recovers the scalar and consumes exactly its bytes. -/
theorem utf8DecodeChar_encode {c : Nat} (hc : isScalar c = true) (rest : List Nat) :
    utf8DecodeChar (utf8EncodeChar c ++ rest) = some (c, (utf8EncodeChar c).length) := by
  obtain ⟨hlt, hsur⟩ := isScalar_iff.mp hc
  by_cases h1 : c < 0x80
  · rw [utf8EncodeChar, if_pos h1, List.singleton_append]
    simp only [utf8DecodeChar, List.length_cons, List.length_nil]
    rw [if_pos h1]
  · by_cases h2 : c < 0x800
    · rw [utf8EncodeChar, if_neg h1, if_pos h2]
      simp only [List.cons_append, List.nil_append, utf8DecodeChar, List.getD_cons_zero,
        List.getD_cons_succ, List.length_cons, List.length_nil]
      rw [if_neg (by omega), if_neg (by omega), if_pos (by omega),
        if_pos (show isCont (0x80 + c % 64) = true by
          simp only [isCont, Bool.and_eq_true, decide_eq_true_eq]; omega)]
      simp only [Option.some.injEq, Prod.mk.injEq, and_true]
      omega
    · by_cases h3 : c < 0x10000
      · rw [utf8EncodeChar, if_neg h1, if_neg h2, if_pos h3]
        simp only [List.cons_append, List.nil_append, utf8DecodeChar, List.getD_cons_zero,
          List.getD_cons_succ, List.length_cons, List.length_nil]
        rw [if_neg (by omega), if_neg (by omega), if_neg (by omega), if_pos (by omega)]
        have hcond : ((if 0xE0 + c / 4096 = 0xE0 then
              0xA0 ≤ 0x80 + c / 64 % 64 && (0x80 + c / 64 % 64 ≤ 0xBF)
            else if 0xE0 + c / 4096 = 0xED then
              0x80 ≤ 0x80 + c / 64 % 64 && (0x80 + c / 64 % 64 ≤ 0x9F)
            else isCont (0x80 + c / 64 % 64)) && isCont (0x80 + c % 64)) = true := by
          split_ifs with he hd <;>
            simp only [isCont, Bool.and_eq_true, decide_eq_true_eq] <;> omega
        rw [if_pos hcond]
        simp only [Option.some.injEq, Prod.mk.injEq, and_true]
        omega
      · rw [utf8EncodeChar, if_neg h1, if_neg h2, if_neg h3]
        simp only [List.cons_append, List.nil_append, utf8DecodeChar, List.getD_cons_zero,
          List.getD_cons_succ, List.length_cons, List.length_nil]
        rw [if_neg (by omega), if_neg (by omega), if_neg (by omega), if_neg (by omega),
          if_pos (by omega)]
        have hcond : (((if 0xF0 + c / 262144 = 0xF0 then
              0x90 ≤ 0x80 + c / 4096 % 64 && (0x80 + c / 4096 % 64 ≤ 0xBF)
            else if 0xF0 + c / 262144 = 0xF4 then
              0x80 ≤ 0x80 + c / 4096 % 64 && (0x80 + c / 4096 % 64 ≤ 0x8F)
            else isCont (0x80 + c / 4096 % 64)) && isCont (0x80 + c / 64 % 64))
              && isCont (0x80 + c % 64)) = true := by
          split_ifs with hf0 hf4 <;>
            simp only [isCont, Bool.and_eq_true, decide_eq_true_eq] <;> omega
        rw [if_pos hcond]
        simp only [Option.some.injEq, Prod.mk.injEq, and_true]
        omega

theorem utf8Encode_cons (c : Nat) (cs : List Nat) :
    utf8Encode (c :: cs) = utf8EncodeChar c ++ utf8Encode cs := by
  simp [utf8Encode]

theorem utf8DecodeLoop_encode (s : List Nat) (hs : validStr s = true) :
    ∀ fuel, (utf8Encode s).length ≤ fuel → utf8DecodeLoop fuel (utf8Encode s) = some s := by
  induction s with
  | nil => intro fuel _; cases fuel <;> simp [utf8Encode, utf8DecodeLoop]
  | cons c cs ih =>
    intro fuel hf
    have hc : isScalar c = true := by
      simp only [validStr, List.all_cons, Bool.and_eq_true] at hs
      exact hs.1
    have hcs : validStr cs = true := by
      simp only [validStr, List.all_cons, Bool.and_eq_true] at hs
      exact hs.2
    rw [utf8Encode_cons] at hf ⊢
    obtain ⟨b, t, hbt⟩ : ∃ b t, utf8EncodeChar c = b :: t := by
      cases h : utf8EncodeChar c with
      | nil => exact absurd h (utf8EncodeChar_ne_nil c)
      | cons b t => exact ⟨b, t, rfl⟩
    have hlen : 1 ≤ (utf8EncodeChar c).length := utf8EncodeChar_length_pos c
    rw [List.length_append] at hf
    obtain ⟨f, rfl⟩ : ∃ f, fuel = f + 1 := by
      rcases fuel with _ | f
      · omega
      · exact ⟨f, rfl⟩
    rw [hbt, List.cons_append, utf8DecodeLoop, ← List.cons_append, ← hbt,
      utf8DecodeChar_encode hc]
    show (utf8DecodeLoop f
        ((utf8EncodeChar c ++ utf8Encode cs).drop (utf8EncodeChar c).length)).map (c :: ·)
      = some (c :: cs)
    rw [List.drop_left, ih hcs f (by omega)]
    rfl

/-- `bytes.decode("utf-8")` inverts `str.encode("utf-8")` on every string of
Unicode scalar values. -/
theorem utf8Decode_encode {s : List Nat} (hs : validStr s = true) :
    utf8Decode (utf8Encode s) = some s :=
  utf8DecodeLoop_encode s hs _ le_rfl

/-! ### Decimal digits round trip -/

theorem natDigits_ne_nil (n : Nat) : natDigits n ≠ [] := by
  rw [natDigits]
  split <;> simp

theorem natDigits_all_digit (n : Nat) : ∀ b ∈ natDigits n, 48 ≤ b ∧ b ≤ 57 := by
  induction n using Nat.strong_induction_on with
  | _ n ih =>
    rw [natDigits]
    split
    · intro b hb
      simp only [List.mem_singleton] at hb
      omega
    · intro b hb
      rw [List.mem_append] at hb
      rcases hb with h | h
      · exact ih (n / 10) (by omega) b h
      · simp only [List.mem_singleton] at h
        omega

theorem isDigit_iff {b : Nat} : isDigit b = true ↔ 48 ≤ b ∧ b ≤ 57 := by
  simp [isDigit, Bool.and_eq_true, decide_eq_true_eq]

theorem parseNatAcc_digits (n : Nat) : ∀ acc rest,
    parseNatAcc acc (natDigits n ++ rest)
      = parseNatAcc (acc * 10 ^ (natDigits n).length + n) rest := by
  induction n using Nat.strong_induction_on with
  | _ n ih =>
    intro acc rest
    by_cases h : n < 10
    · rw [natDigits, dif_pos h, List.singleton_append, parseNatAcc,
        if_pos (isDigit_iff.mpr (by omega)), List.length_singleton]
      congr 1
      omega
    · rw [natDigits, dif_neg h, List.append_assoc, List.singleton_append,
        ih (n / 10) (by omega) acc ((48 + n % 10) :: rest), parseNatAcc,
        if_pos (isDigit_iff.mpr (by omega)), List.length_append,
        List.length_singleton]
      congr 1
      rw [pow_succ, ← mul_assoc]
      omega

theorem parseNatAcc_stop (acc : Nat) (rest : List Nat) (h : headNotDigit rest = true) :
    parseNatAcc acc rest = (acc, rest) := by
  cases rest with
  | nil => rw [parseNatAcc]
  | cons b t =>
    rw [parseNatAcc, if_neg]
    simp only [headNotDigit, Bool.not_eq_true'] at h
    simp only [isDigit, h, Bool.false_eq_true, not_false_eq_true]

/-- Parsing the decimal digits of `n` followed by non-digit input yields `n`
and leaves that input. -/
theorem parseNatAcc_natDigits (n : Nat) (rest : List Nat)
    (h : headNotDigit rest = true) :
    parseNatAcc 0 (natDigits n ++ rest) = (n, rest) := by
  rw [parseNatAcc_digits n 0 rest, parseNatAcc_stop _ _ h, zero_mul, zero_add]

/-! ### Hex digits -/

theorem escChar_length_pos (c : Nat) : 0 < (escChar c).length := by
  rw [escChar]
  split_ifs <;> first | simp | exact utf8EncodeChar_length_pos c

theorem utf8EncodeChar_head_ge {c : Nat} (h : ¬c < 0x80) :
    ∃ b t, utf8EncodeChar c = b :: t ∧ 0xC2 ≤ b := by
  by_cases h2 : c < 0x800
  · exact ⟨0xC0 + c / 64, [0x80 + c % 64],
      by rw [utf8EncodeChar, if_neg h, if_pos h2], by omega⟩
  · by_cases h3 : c < 0x10000
    · exact ⟨0xE0 + c / 4096, [0x80 + c / 64 % 64, 0x80 + c % 64],
        by rw [utf8EncodeChar, if_neg h, if_neg h2, if_pos h3], by omega⟩
    · exact ⟨0xF0 + c / 262144, [0x80 + c / 4096 % 64, 0x80 + c / 64 % 64, 0x80 + c % 64],
        by rw [utf8EncodeChar, if_neg h, if_neg h2, if_neg h3], by omega⟩

theorem hexVal_hexDigit {d : Nat} (h : d < 16) : hexVal (hexDigit d) = some d := by
  rw [hexDigit]
  split_ifs with h10
  · rw [hexVal, if_pos (by simp only [Bool.and_eq_true, decide_eq_true_eq]; omega)]
    congr 1
    omega
  · rw [hexVal, if_neg (by simp only [Bool.and_eq_true, decide_eq_true_eq]; omega),
      if_pos (by simp only [Bool.and_eq_true, decide_eq_true_eq]; omega)]
    congr 1
    omega

/-! ### JSON string literal round trip -/

/-- Parsing a serialized string body (followed by the closing quote and
arbitrary further input) recovers the string. -/
theorem parseStrRest_escape (s : List Nat) (hs : validStr s = true) :
    ∀ fuel rest, (s.map escChar).flatten.length < fuel →
      parseStrRest fuel ((s.map escChar).flatten ++ 34 :: rest) = some (s, rest) := by
  induction s with
  | nil =>
    intro fuel rest hf
    obtain ⟨f, rfl⟩ : ∃ f, fuel = f + 1 := ⟨fuel - 1, by omega⟩
    rw [List.map_nil, List.flatten_nil, List.nil_append, parseStrRest, if_pos rfl]
  | cons c cs ih =>
    intro fuel rest hf
    have hc : isScalar c = true := by
      simp only [validStr, List.all_cons, Bool.and_eq_true] at hs
      exact hs.1
    have hcs : validStr cs = true := by
      simp only [validStr, List.all_cons, Bool.and_eq_true] at hs
      exact hs.2
    rw [List.map_cons, List.flatten_cons] at hf ⊢
    rw [List.length_append] at hf
    have hcl : 0 < (escChar c).length := escChar_length_pos c
    obtain ⟨f, rfl⟩ : ∃ f, fuel = f + 1 := ⟨fuel - 1, by omega⟩
    have hihf : (cs.map escChar).flatten.length < f := by omega
    by_cases h34 : c = 34
    · subst h34
      rw [show escChar 34 = [92, 34] from rfl]
      simp only [List.cons_append, List.nil_append]
      rw [parseStrRest, if_neg (by decide), if_pos rfl]
      simp only [List.getD_cons_zero, List.drop_succ_cons, List.drop_zero]
      rw [if_pos (by decide), ih hcs f rest hihf]
      rfl
    · by_cases h92 : c = 92
      · subst h92
        rw [show escChar 92 = [92, 92] from rfl]
        simp only [List.cons_append, List.nil_append]
        rw [parseStrRest, if_neg (by decide), if_pos rfl]
        simp only [List.getD_cons_zero, List.drop_succ_cons, List.drop_zero]
        rw [if_neg (by decide), if_pos (by decide), ih hcs f rest hihf]
        rfl
      · by_cases hlt32 : c < 32
        · rw [show escChar c = [92, 117, 48, 48, hexDigit (c / 16), hexDigit (c % 16)] from by
            rw [escChar, if_neg h34, if_neg h92, if_pos hlt32]]
          simp only [List.cons_append, List.nil_append]
          rw [parseStrRest, if_neg (by decide), if_pos rfl]
          simp only [List.getD_cons_zero, List.getD_cons_succ, List.drop_succ_cons,
            List.drop_zero]
          rw [if_neg (by decide), if_neg (by decide), if_neg (by decide),
            if_neg (by decide), if_neg (by decide), if_neg (by decide),
            if_neg (by decide), if_neg (by decide), if_pos (by decide)]
          simp only [show hexVal 48 = some 0 from rfl,
            hexVal_hexDigit (show c / 16 < 16 by omega),
            hexVal_hexDigit (show c % 16 < 16 by omega), Option.some_bind]
          rw [ih hcs f rest hihf]
          simp only [Option.map_some', Option.some.injEq, Prod.mk.injEq, List.cons.injEq]
          exact ⟨⟨by omega, by trivial⟩, by trivial⟩
        · by_cases hc128 : c < 128
          · rw [show escChar c = [c] from by
              rw [escChar, if_neg h34, if_neg h92, if_neg hlt32, utf8EncodeChar,
                if_pos hc128]]
            simp only [List.singleton_append, List.cons_append]
            rw [parseStrRest, if_neg h34, if_neg h92, if_neg (by omega)]
            simp only [utf8DecodeChar]
            rw [if_pos hc128]
            simp only [Option.some_bind]
            show (parseStrRest f
                ((c :: ((cs.map escChar).flatten ++ 34 :: rest)).drop 1)).map
                  (fun p => (c :: p.1, p.2))
              = some (c :: cs, rest)
            simp only [List.drop_succ_cons, List.drop_zero]
            rw [ih hcs f rest hihf]
            rfl
          · obtain ⟨b, t, hbt, hb⟩ := utf8EncodeChar_head_ge hc128
            rw [show escChar c = utf8EncodeChar c from by
              rw [escChar, if_neg h34, if_neg h92, if_neg hlt32]]
            rw [hbt]
            simp only [List.cons_append, List.append_assoc]
            rw [parseStrRest, if_neg (by omega), if_neg (by omega), if_neg (by omega)]
            rw [← List.cons_append, ← hbt, utf8DecodeChar_encode hc]
            simp only [Option.some_bind]
            show (parseStrRest f
                ((utf8EncodeChar c ++ ((cs.map escChar).flatten ++ 34 :: rest)).drop
                  (utf8EncodeChar c).length)).map (fun p => (c :: p.1, p.2))
              = some (c :: cs, rest)
            rw [List.drop_left, ih hcs f rest hihf]
            rfl

/-! ### JSON round trip -/

/-- Structural induction principle for the nested inductive `Json`. -/
theorem Json.recAux {P : Json → Prop}
    (hnull : P .null) (hbool : ∀ b, P (.bool b)) (hnum : ∀ n, P (.num n))
    (hstr : ∀ s, P (.str s))
    (harr : ∀ xs, (∀ x ∈ xs, P x) → P (.arr xs))
    (hobj : ∀ kvs, (∀ kv ∈ kvs, P kv.2) → P (.obj kvs)) : ∀ j, P j
  | .null => hnull
  | .bool b => hbool b
  | .num n => hnum n
  | .str s => hstr s
  | .arr xs => harr xs (fun x hx =>
      have : sizeOf x < 1 + sizeOf xs := by
        have h := List.sizeOf_lt_of_mem hx
        omega
      Json.recAux hnull hbool hnum hstr harr hobj x)
  | .obj kvs => hobj kvs (fun kv hkv =>
      have : sizeOf kv.2 < 1 + sizeOf kvs := by
        have h := List.sizeOf_lt_of_mem hkv
        obtain ⟨k, v⟩ := kv
        simp only [Prod.mk.sizeOf_spec] at *
        omega
      Json.recAux hnull hbool hnum hstr harr hobj kv.2)
termination_by j => sizeOf j

theorem natDigits_head (n : Nat) : ∃ b t, natDigits n = b :: t ∧ 48 ≤ b ∧ b ≤ 57 := by
  cases h : natDigits n with
  | nil => exact absurd h (natDigits_ne_nil n)
  | cons b t =>
    refine ⟨b, t, rfl, ?_⟩
    exact natDigits_all_digit n b (by rw [h]; exact List.mem_cons_self b t)

/-- Every serialized JSON value begins with a byte that is not a closing
bracket, closing brace, comma or colon. -/
theorem jsonDumps_head_spec (j : Json) :
    ∃ b t, jsonDumps j = b :: t ∧ ¬b = 93 ∧ ¬b = 44 ∧ ¬b = 125 ∧ ¬b = 58 := by
  cases j with
  | null => exact ⟨110, _, rfl, by decide, by decide, by decide, by decide⟩
  | bool b =>
    cases b with
    | true => exact ⟨116, _, rfl, by decide, by decide, by decide, by decide⟩
    | false => exact ⟨102, _, rfl, by decide, by decide, by decide, by decide⟩
  | num n =>
    rw [jsonDumps, intBytes]
    split_ifs with hneg
    · exact ⟨45, _, rfl, by decide, by decide, by decide, by decide⟩
    · obtain ⟨b, t, hbt, hb1, hb2⟩ := natDigits_head n.toNat
      exact ⟨b, t, hbt, by omega, by omega, by omega, by omega⟩
  | str s => exact ⟨34, _, rfl, by decide, by decide, by decide, by decide⟩
  | arr xs =>
    exact ⟨91, dumpsElems xs ++ [93], by simp [jsonDumps], by decide, by decide,
      by decide, by decide⟩
  | obj kvs =>
    exact ⟨123, dumpsMembers kvs ++ [125], by simp [jsonDumps], by decide, by decide,
      by decide, by decide⟩

theorem jsonDumps_ne_nil (j : Json) : jsonDumps j ≠ [] := by
  obtain ⟨b, t, hbt, -⟩ := jsonDumps_head_spec j
  rw [hbt]
  simp

theorem jsonDumps_length_pos (j : Json) : 0 < (jsonDumps j).length := by
  obtain ⟨b, t, hbt, -⟩ := jsonDumps_head_spec j
  rw [hbt]
  simp


/-- Parsing serialized array elements (followed by `]` and arbitrary input)
recovers the elements. -/
theorem parseArrRest_dumps (xs : List Json)
    (hP : ∀ x ∈ xs, ∀ fuel rest, (jsonDumps x).length < fuel →
      headNotDigit rest = true →
      parseJsonValue fuel (jsonDumps x ++ rest) = some (x, rest)) :
    ∀ fuel rest, (dumpsElems xs).length + 2 ≤ fuel →
      parseArrRest fuel (dumpsElems xs ++ 93 :: rest) = some (xs, rest) := by
  induction xs with
  | nil =>
    intro fuel rest hf
    obtain ⟨f, rfl⟩ : ∃ f, fuel = f + 1 := ⟨fuel - 1, by omega⟩
    rw [dumpsElems, List.nil_append, parseArrRest, if_pos rfl]
  | cons x ys ih =>
    intro fuel rest hf
    obtain ⟨f, rfl⟩ : ∃ f, fuel = f + 1 := ⟨fuel - 1, by omega⟩
    obtain ⟨b, t, hbt, hb93, hb44, hb125, hb58⟩ := jsonDumps_head_spec x
    have hxlen : 0 < (jsonDumps x).length := jsonDumps_length_pos x
    cases ys with
    | nil =>
      rw [dumpsElems] at hf ⊢
      rw [hbt, List.cons_append, parseArrRest, if_neg hb93, ← List.cons_append, ← hbt,
        hP x (List.mem_cons_self x []) f (93 :: rest) (by omega) rfl]
      rfl
    | cons y ys' =>
      rw [dumpsElems] at hf ⊢
      simp only [List.length_append, List.length_cons] at hf
      rw [hbt]
      simp only [List.cons_append, List.append_assoc]
      rw [parseArrRest, if_neg hb93, ← List.cons_append, ← hbt,
        hP x (List.mem_cons_self x (y :: ys')) f
          (44 :: (dumpsElems (y :: ys') ++ 93 :: rest)) (by omega) rfl]
      show (parseArrRest f (dumpsElems (y :: ys') ++ 93 :: rest)).map
          (fun p => (x :: p.1, p.2)) = some (x :: y :: ys', rest)
      rw [ih (fun z hz => hP z (List.mem_cons_of_mem x hz)) f rest (by omega)]
      rfl

/-- Parsing serialized object members (followed by `}` and arbitrary input)
recovers the members. -/
theorem parseObjRest_dumps (kvs : List (List Nat × Json))
    (hP : ∀ k v, (k, v) ∈ kvs → ∀ fuel rest, (jsonDumps v).length < fuel →
      headNotDigit rest = true →
      parseJsonValue fuel (jsonDumps v ++ rest) = some (v, rest))
    (hwf : wfMembers kvs = true) :
    ∀ fuel rest, (dumpsMembers kvs).length + 2 ≤ fuel →
      parseObjRest fuel (dumpsMembers kvs ++ 125 :: rest) = some (kvs, rest) := by
  induction kvs with
  | nil =>
    intro fuel rest hf
    obtain ⟨f, rfl⟩ : ∃ f, fuel = f + 1 := ⟨fuel - 1, by omega⟩
    rw [dumpsMembers, List.nil_append, parseObjRest, if_pos rfl]
  | cons kv tail ih =>
    obtain ⟨k, v⟩ := kv
    have hk : validStr k = true := by
      rw [wfMembers] at hwf
      simp only [Bool.and_eq_true] at hwf
      exact hwf.1.1
    have hvlen : 0 < (jsonDumps v).length := jsonDumps_length_pos v
    intro fuel rest hf
    obtain ⟨f, rfl⟩ : ∃ f, fuel = f + 1 := ⟨fuel - 1, by omega⟩
    cases tail with
    | nil =>
      rw [dumpsMembers, strBytes] at hf ⊢
      simp only [List.length_append, List.length_cons, List.length_nil] at hf
      simp only [List.cons_append, List.nil_append, List.append_assoc,
        List.singleton_append]
      rw [parseObjRest, if_neg (by decide), if_pos rfl,
        parseStrRest_escape k hk
          (((k.map escChar).flatten ++ 34 :: 58 :: (jsonDumps v ++ 125 :: rest)).length
            + 1)
          (58 :: (jsonDumps v ++ 125 :: rest))
          (by simp only [List.length_append, List.length_cons]; omega)]
      show (parseJsonValue f (jsonDumps v ++ 125 :: rest)).bind (fun vr =>
          if vr.2.getD 0 256 = 44 then
            (parseObjRest f (vr.2.drop 1)).map (fun p => ((k, vr.1) :: p.1, p.2))
          else if vr.2.getD 0 256 = 125 then some ([(k, vr.1)], vr.2.drop 1)
          else none) = some ([(k, v)], rest)
      rw [hP k v (List.mem_cons_self (k, v) []) f (125 :: rest) (by omega) rfl]
      rfl
    | cons m tail' =>
      rw [dumpsMembers, strBytes] at hf ⊢
      simp only [List.length_append, List.length_cons, List.length_nil] at hf
      simp only [List.cons_append, List.nil_append, List.append_assoc,
        List.singleton_append]
      rw [parseObjRest, if_neg (by decide), if_pos rfl,
        parseStrRest_escape k hk
          (((k.map escChar).flatten ++ 34 :: 58 :: (jsonDumps v ++
            44 :: (dumpsMembers (m :: tail') ++ 125 :: rest))).length + 1)
          (58 :: (jsonDumps v ++ 44 :: (dumpsMembers (m :: tail') ++ 125 :: rest)))
          (by simp only [List.length_append, List.length_cons]; omega)]
      show (parseJsonValue f (jsonDumps v ++
          44 :: (dumpsMembers (m :: tail') ++ 125 :: rest))).bind (fun vr =>
          if vr.2.getD 0 256 = 44 then
            (parseObjRest f (vr.2.drop 1)).map (fun p => ((k, vr.1) :: p.1, p.2))
          else if vr.2.getD 0 256 = 125 then some ([(k, vr.1)], vr.2.drop 1)
          else none) = some ((k, v) :: m :: tail', rest)
      rw [hP k v (List.mem_cons_self (k, v) (m :: tail')) f
        (44 :: (dumpsMembers (m :: tail') ++ 125 :: rest)) (by omega) rfl]
      show (parseObjRest f (dumpsMembers (m :: tail') ++ 125 :: rest)).map
          (fun p => ((k, v) :: p.1, p.2)) = some ((k, v) :: m :: tail', rest)
      have hwf2 : wfMembers (m :: tail') = true := by
        rw [wfMembers] at hwf
        simp only [Bool.and_eq_true] at hwf
        exact hwf.2
      rw [ih (fun k2 v2 hz => hP k2 v2 (List.mem_cons_of_mem (k, v) hz)) hwf2 f rest
        (by omega)]
      rfl

theorem wfElems_mem {xs : List Json} (h : wfElems xs = true) :
    ∀ x ∈ xs, wfJson x = true := by
  induction xs with
  | nil => intro x hx; exact absurd hx (List.not_mem_nil x)
  | cons a l ih =>
    rw [wfElems, Bool.and_eq_true] at h
    intro x hx
    rcases List.mem_cons.mp hx with rfl | hx
    · exact h.1
    · exact ih h.2 x hx

theorem wfMembers_mem {kvs : List (List Nat × Json)} (h : wfMembers kvs = true) :
    ∀ kv ∈ kvs, wfJson kv.2 = true := by
  induction kvs with
  | nil => intro kv hkv; exact absurd hkv (List.not_mem_nil kv)
  | cons a l ih =>
    obtain ⟨k, v⟩ := a
    rw [wfMembers] at h
    simp only [Bool.and_eq_true] at h
    intro kv hkv
    rcases List.mem_cons.mp hkv with rfl | hkv
    · exact h.1.2
    · exact ih h.2 kv hkv

/-- Parsing a serialized well-formed JSON value (followed by input that does
not start with a digit) recovers the value exactly. -/
theorem parseJsonValue_dumps : ∀ j, wfJson j = true → ∀ fuel rest,
    (jsonDumps j).length < fuel → headNotDigit rest = true →
    parseJsonValue fuel (jsonDumps j ++ rest) = some (j, rest) := by
  refine Json.recAux ?_ ?_ ?_ ?_ ?_ ?_
  · -- null
    intro _ fuel rest hf _
    rw [jsonDumps] at hf ⊢
    obtain ⟨f, rfl⟩ : ∃ f, fuel = f + 1 := ⟨fuel - 1, by simp at hf; omega⟩
    rfl
  · -- bool
    intro b _ fuel rest hf _
    cases b <;>
      (rw [jsonDumps] at hf ⊢;
       obtain ⟨f, rfl⟩ : ∃ f, fuel = f + 1 := ⟨fuel - 1, by simp at hf; omega⟩)
    · rfl
    · rfl
  · -- num
    intro n _ fuel rest hf hr
    rw [jsonDumps, intBytes] at hf ⊢
    by_cases hneg : n < 0
    · rw [if_pos hneg] at hf ⊢
      rw [List.length_cons] at hf
      obtain ⟨f, rfl⟩ : ∃ f, fuel = f + 1 := ⟨fuel - 1, by omega⟩
      obtain ⟨d, t, hdt, hd1, hd2⟩ := natDigits_head n.natAbs
      rw [List.cons_append, parseJsonValue, if_neg (by decide), if_neg (by decide),
        if_neg (by decide), if_neg (by decide), if_neg (by decide), if_neg (by decide),
        if_pos rfl, hdt, List.cons_append]
      simp only [List.getD_cons_zero]
      rw [if_pos (isDigit_iff.mpr ⟨hd1, hd2⟩), ← List.cons_append, ← hdt,
        parseNatAcc_natDigits n.natAbs rest hr]
      simp only [Option.some.injEq, Prod.mk.injEq, Json.num.injEq]
      exact ⟨by omega, trivial⟩
    · rw [if_neg hneg] at hf ⊢
      obtain ⟨d, t, hdt, hd1, hd2⟩ := natDigits_head n.toNat
      rw [hdt] at hf ⊢
      rw [List.length_cons] at hf
      obtain ⟨f, rfl⟩ : ∃ f, fuel = f + 1 := ⟨fuel - 1, by omega⟩
      rw [List.cons_append, parseJsonValue, if_neg (by omega), if_neg (by omega),
        if_neg (by omega), if_neg (by omega), if_neg (by omega), if_neg (by omega),
        if_neg (by omega), if_pos (isDigit_iff.mpr ⟨hd1, hd2⟩), ← List.cons_append,
        ← hdt, parseNatAcc_natDigits n.toNat rest hr]
      simp only [Option.some.injEq, Prod.mk.injEq, Json.num.injEq]
      exact ⟨by omega, trivial⟩
  · -- str
    intro s hwf fuel rest hf hr
    rw [wfJson] at hwf
    rw [jsonDumps, strBytes] at hf ⊢
    simp only [List.length_cons, List.length_append, List.length_singleton] at hf
    obtain ⟨f, rfl⟩ : ∃ f, fuel = f + 1 := ⟨fuel - 1, by omega⟩
    simp only [List.cons_append, List.nil_append, List.append_assoc,
      List.singleton_append]
    rw [parseJsonValue, if_neg (by decide), if_neg (by decide), if_neg (by decide),
      if_pos rfl,
      parseStrRest_escape s hwf
        (((s.map escChar).flatten ++ 34 :: rest).length + 1) rest
        (by simp only [List.length_append, List.length_cons]; omega)]
    rfl
  · -- arr
    intro xs hmem hwf fuel rest hf hr
    rw [wfJson] at hwf
    rw [jsonDumps] at hf ⊢
    simp only [List.length_cons, List.length_append, List.length_singleton] at hf
    obtain ⟨f, rfl⟩ : ∃ f, fuel = f + 1 := ⟨fuel - 1, by omega⟩
    simp only [List.cons_append, List.nil_append, List.append_assoc,
      List.singleton_append]
    rw [parseJsonValue, if_neg (by decide), if_neg (by decide), if_neg (by decide),
      if_neg (by decide), if_pos rfl,
      parseArrRest_dumps xs
        (fun x hx => hmem x hx (wfElems_mem hwf x hx)) f rest (by omega)]
    rfl
  · -- obj
    intro kvs hmem hwf fuel rest hf hr
    rw [wfJson] at hwf
    rw [jsonDumps] at hf ⊢
    simp only [List.length_cons, List.length_append, List.length_singleton] at hf
    obtain ⟨f, rfl⟩ : ∃ f, fuel = f + 1 := ⟨fuel - 1, by omega⟩
    simp only [List.cons_append, List.nil_append, List.append_assoc,
      List.singleton_append]
    rw [parseJsonValue, if_neg (by decide), if_neg (by decide), if_neg (by decide),
      if_neg (by decide), if_neg (by decide), if_pos rfl,
      parseObjRest_dumps kvs
        (fun k v hkv => hmem (k, v) hkv (wfMembers_mem hwf (k, v) hkv))
        hwf f rest (by omega)]
    rfl

/-- `orjson.loads` inverts `orjson.dumps` on every well-formed JSON value. -/
theorem jsonLoads_dumps (j : Json) (hwf : wfJson j = true) :
    jsonLoads (jsonDumps j) = some j := by
  rw [jsonLoads]
  have h := parseJsonValue_dumps j hwf ((jsonDumps j).length + 1) [] (by omega) rfl
  rw [List.append_nil] at h
  rw [h]

/-! ### Byte-boundedness of all serialized output -/

theorem utf8EncodeChar_lt (c : Nat) (hc : isScalar c = true) :
    ∀ b ∈ utf8EncodeChar c, b < 256 := by
  obtain ⟨hlt, -⟩ := isScalar_iff.mp hc
  intro b hb
  rw [utf8EncodeChar] at hb
  split_ifs at hb <;> simp only [List.mem_cons, List.not_mem_nil, or_false] at hb <;>
    rcases hb with rfl | rfl | rfl | rfl <;> omega

theorem utf8Encode_lt (s : List Nat) (hs : validStr s = true) :
    ∀ b ∈ utf8Encode s, b < 256 := by
  intro b hb
  rw [utf8Encode, List.mem_flatten] at hb
  obtain ⟨l, hl, hbl⟩ := hb
  rw [List.mem_map] at hl
  obtain ⟨c, hcs, rfl⟩ := hl
  have hc : isScalar c = true := by
    rw [validStr, List.all_eq_true] at hs
    exact hs c hcs
  exact utf8EncodeChar_lt c hc b hbl

theorem natDigits_lt (n : Nat) : ∀ b ∈ natDigits n, b < 256 := by
  intro b hb
  have := natDigits_all_digit n b hb
  omega

theorem intBytes_lt (n : Int) : ∀ b ∈ intBytes n, b < 256 := by
  intro b hb
  rw [intBytes] at hb
  split_ifs at hb
  · rcases List.mem_cons.mp hb with rfl | hb
    · omega
    · exact natDigits_lt _ b hb
  · exact natDigits_lt _ b hb

theorem hexDigit_lt (d : Nat) (h : d < 16) : hexDigit d < 256 := by
  rw [hexDigit]
  split_ifs <;> omega

theorem escChar_lt (c : Nat) (hc : isScalar c = true) : ∀ b ∈ escChar c, b < 256 := by
  intro b hb
  rw [escChar] at hb
  split_ifs at hb with h1 h2 h3
  · simp only [List.mem_cons, List.not_mem_nil, or_false] at hb
    rcases hb with rfl | rfl <;> omega
  · simp only [List.mem_cons, List.not_mem_nil, or_false] at hb
    rcases hb with rfl | rfl <;> omega
  · simp only [List.mem_cons, List.not_mem_nil, or_false] at hb
    rcases hb with rfl | rfl | rfl | rfl | rfl | rfl
    · omega
    · omega
    · omega
    · omega
    · exact hexDigit_lt _ (by omega)
    · exact hexDigit_lt _ (by omega)
  · exact utf8EncodeChar_lt c hc b hb

theorem strBytes_lt (s : List Nat) (hs : validStr s = true) :
    ∀ b ∈ strBytes s, b < 256 := by
  intro b hb
  rw [strBytes] at hb
  rcases List.mem_cons.mp hb with rfl | hb
  · omega
  · rcases List.mem_append.mp hb with hb | hb
    · rw [List.mem_flatten] at hb
      obtain ⟨l, hl, hbl⟩ := hb
      rw [List.mem_map] at hl
      obtain ⟨c, hcs, rfl⟩ := hl
      have hc : isScalar c = true := by
        rw [validStr, List.all_eq_true] at hs
        exact hs c hcs
      exact escChar_lt c hc b hbl
    · rcases List.mem_cons.mp hb with rfl | hb
      · omega
      · exact absurd hb (List.not_mem_nil b)

theorem dumpsElems_lt (xs : List Json)
    (hP : ∀ x ∈ xs, ∀ b ∈ jsonDumps x, b < 256) :
    ∀ b ∈ dumpsElems xs, b < 256 := by
  induction xs with
  | nil =>
    intro b hb
    rw [dumpsElems] at hb
    exact absurd hb (List.not_mem_nil b)
  | cons x ys ih =>
    cases ys with
    | nil =>
      intro b hb
      rw [dumpsElems] at hb
      exact hP x (List.mem_cons_self x []) b hb
    | cons y ys2 =>
      intro b hb
      rw [dumpsElems] at hb
      rcases List.mem_append.mp hb with hb | hb
      · exact hP x (List.mem_cons_self x (y :: ys2)) b hb
      · rcases List.mem_cons.mp hb with rfl | hb
        · omega
        · exact ih (fun z hz => hP z (List.mem_cons_of_mem x hz)) b hb

theorem dumpsMembers_lt (kvs : List (List Nat × Json))
    (hP : ∀ kv ∈ kvs, ∀ b ∈ jsonDumps kv.2, b < 256)
    (hwf : wfMembers kvs = true) :
    ∀ b ∈ dumpsMembers kvs, b < 256 := by
  induction kvs with
  | nil =>
    intro b hb
    rw [dumpsMembers] at hb
    exact absurd hb (List.not_mem_nil b)
  | cons kv tail ih =>
    obtain ⟨k, v⟩ := kv
    have hk : validStr k = true := by
      rw [wfMembers] at hwf
      simp only [Bool.and_eq_true] at hwf
      exact hwf.1.1
    have hwf2 : wfMembers tail = true := by
      rw [wfMembers] at hwf
      simp only [Bool.and_eq_true] at hwf
      exact hwf.2
    cases tail with
    | nil =>
      intro b hb
      rw [dumpsMembers] at hb
      rcases List.mem_append.mp hb with hb | hb
      · exact strBytes_lt k hk b hb
      · rcases List.mem_cons.mp hb with rfl | hb
        · omega
        · exact hP (k, v) (List.mem_cons_self (k, v) []) b hb
    | cons m tail2 =>
      intro b hb
      rw [dumpsMembers] at hb
      rcases List.mem_append.mp hb with hb | hb
      · rcases List.mem_append.mp hb with hb | hb
        · exact strBytes_lt k hk b hb
        · rcases List.mem_cons.mp hb with rfl | hb
          · omega
          · exact hP (k, v) (List.mem_cons_self (k, v) (m :: tail2)) b hb
      · rcases List.mem_cons.mp hb with rfl | hb
        · omega
        · exact ih (fun z hz => hP z (List.mem_cons_of_mem (k, v) hz)) hwf2 b hb

theorem jsonDumps_lt : ∀ j, wfJson j = true → ∀ b ∈ jsonDumps j, b < 256 := by
  refine Json.recAux ?_ ?_ ?_ ?_ ?_ ?_
  · intro _ b hb
    rw [jsonDumps] at hb
    simp only [List.mem_cons, List.not_mem_nil, or_false] at hb
    rcases hb with rfl | rfl | rfl | rfl <;> omega
  · intro bl _ b hb
    cases bl <;> rw [jsonDumps] at hb <;>
      simp only [List.mem_cons, List.not_mem_nil, or_false] at hb
    · rcases hb with rfl | rfl | rfl | rfl | rfl <;> omega
    · rcases hb with rfl | rfl | rfl | rfl <;> omega
  · intro n _ b hb
    rw [jsonDumps] at hb
    exact intBytes_lt n b hb
  · intro s hwf b hb
    rw [wfJson] at hwf
    rw [jsonDumps] at hb
    exact strBytes_lt s hwf b hb
  · intro xs hmem hwf b hb
    rw [wfJson] at hwf
    rw [jsonDumps] at hb
    rcases List.mem_cons.mp hb with rfl | hb
    · omega
    · rcases List.mem_append.mp hb with hb | hb
      · exact dumpsElems_lt xs
          (fun x hx => hmem x hx (wfElems_mem hwf x hx)) b hb
      · simp only [List.mem_singleton] at hb
        omega
  · intro kvs hmem hwf b hb
    rw [wfJson] at hwf
    rw [jsonDumps] at hb
    rcases List.mem_cons.mp hb with rfl | hb
    · omega
    · rcases List.mem_append.mp hb with hb | hb
      · exact dumpsMembers_lt kvs
          (fun kv hkv => hmem kv hkv (wfMembers_mem hwf kv hkv)) hwf b hb
      · simp only [List.mem_singleton] at hb
        omega

/-- Payload bytes produced by `_serialize_payload` are bytes. -/
theorem serializePayloadV_lt (v : Value) (hwf : wfValue v = true) :
    ∀ b ∈ (serializePayloadV v).1, b < 256 := by
  cases v with
  | dict kvs =>
    rw [wfValue] at hwf
    exact jsonDumps_lt (.obj kvs) (by rw [wfJson]; exact hwf)
  | str s =>
    rw [wfValue] at hwf
    exact utf8Encode_lt s hwf

/-- Every byte of an encoded frame is a byte. -/
theorem formatLogEntry_lt (v : Value) (hwf : wfValue v = true) :
    ∀ b ∈ formatLogEntry v, b < 256 := by
  intro b hb
  rw [formatLogEntry] at hb
  rcases List.mem_append.mp hb with hb | hb
  · rcases List.mem_append.mp hb with hb | hb
    · rcases List.mem_append.mp hb with hb | hb
      · exact le32_lt _ b hb
      · rcases List.mem_cons.mp hb with rfl | hb
        · cases v <;> simp [serializePayloadV]
        · exact absurd hb (List.not_mem_nil b)
    · exact le32_lt _ b hb
  · exact serializePayloadV_lt v hwf b hb

/-! ### CRC-32: state bounds and single-byte-error detection -/

theorem crcBit_lt {s : Nat} (h : s < 4294967296) : crcBit s < 4294967296 := by
  have h32 : (4294967296 : Nat) = 2 ^ 32 := by norm_num
  rw [crcBit]
  split_ifs
  · rw [h32]
    exact Nat.xor_lt_two_pow (by omega) (by norm_num [crcPoly])
  · omega

theorem crcBit_iter_lt (n : Nat) {s : Nat} (h : s < 4294967296) :
    crcBit^[n] s < 4294967296 := by
  induction n generalizing s with
  | zero => simpa using h
  | succ k ih =>
    rw [Function.iterate_succ_apply]
    exact ih (crcBit_lt h)

theorem crcByteStep_lt {s b : Nat} (hs : s < 4294967296) (hb : b < 256) :
    crcByteStep s b < 4294967296 := by
  have h32 : (4294967296 : Nat) = 2 ^ 32 := by norm_num
  rw [crcByteStep]
  exact crcBit_iter_lt 8 (by rw [h32]; exact Nat.xor_lt_two_pow (by omega) (by omega))

theorem crcFold_lt (l : List Nat) (hl : ∀ b ∈ l, b < 256) :
    ∀ s, s < 4294967296 → l.foldl crcByteStep s < 4294967296 := by
  induction l with
  | nil => intro s hs; simpa using hs
  | cons b t ih =>
    intro s hs
    rw [List.foldl_cons]
    exact ih (fun x hx => hl x (List.mem_cons_of_mem b hx)) _
      (crcByteStep_lt hs (hl b (List.mem_cons_self b t)))

theorem crc32_lt (l : List Nat) (hl : ∀ b ∈ l, b < 256) : crc32 l < 4294967296 := by
  have h32 : (4294967296 : Nat) = 2 ^ 32 := by norm_num
  rw [crc32, h32]
  exact Nat.xor_lt_two_pow (by rw [← h32]; exact crcFold_lt l hl 4294967295 (by omega))
    (by omega)

theorem crcPoly_ge : 2 ^ 31 ≤ crcPoly := by norm_num [crcPoly]

theorem xor_crcPoly_ge {a : Nat} (h : a < 2 ^ 31) : 2 ^ 31 ≤ a ^^^ crcPoly := by
  apply Nat.testBit_implies_ge
  rw [Nat.testBit_xor, Nat.testBit_lt_two_pow h]
  decide

theorem crcBit_inj {s1 s2 : Nat} (h1 : s1 < 4294967296) (h2 : s2 < 4294967296)
    (h : crcBit s1 = crcBit s2) : s1 = s2 := by
  rw [crcBit, crcBit] at h
  split_ifs at h with p1 p2 p2
  · have := Nat.xor_left_inj.mp h
    omega
  · have hge := xor_crcPoly_ge (a := s1 / 2) (by omega)
    rw [h] at hge
    have : s2 / 2 < 2 ^ 31 := by omega
    omega
  · have hge := xor_crcPoly_ge (a := s2 / 2) (by omega)
    rw [← h] at hge
    have : s1 / 2 < 2 ^ 31 := by omega
    omega
  · omega

theorem crcBit_iter_inj (n : Nat) {s1 s2 : Nat} (h1 : s1 < 4294967296)
    (h2 : s2 < 4294967296) (h : crcBit^[n] s1 = crcBit^[n] s2) : s1 = s2 := by
  induction n generalizing s1 s2 with
  | zero => simpa using h
  | succ k ih =>
    rw [Function.iterate_succ_apply, Function.iterate_succ_apply] at h
    exact crcBit_inj h1 h2 (ih (crcBit_lt h1) (crcBit_lt h2) h)

theorem crcByteStep_inj_state {s1 s2 b : Nat} (h1 : s1 < 4294967296)
    (h2 : s2 < 4294967296) (hb : b < 256)
    (h : crcByteStep s1 b = crcByteStep s2 b) : s1 = s2 := by
  have h32 : (4294967296 : Nat) = 2 ^ 32 := by norm_num
  rw [crcByteStep, crcByteStep] at h
  have := crcBit_iter_inj 8
    (by rw [h32]; exact Nat.xor_lt_two_pow (by omega) (by omega))
    (by rw [h32]; exact Nat.xor_lt_two_pow (by omega) (by omega)) h
  exact Nat.xor_left_inj.mp this

theorem crcByteStep_inj_byte {s b1 b2 : Nat} (hs : s < 4294967296)
    (hb1 : b1 < 256) (hb2 : b2 < 256)
    (h : crcByteStep s b1 = crcByteStep s b2) : b1 = b2 := by
  have h32 : (4294967296 : Nat) = 2 ^ 32 := by norm_num
  rw [crcByteStep, crcByteStep] at h
  have := crcBit_iter_inj 8
    (by rw [h32]; exact Nat.xor_lt_two_pow (by omega) (by omega))
    (by rw [h32]; exact Nat.xor_lt_two_pow (by omega) (by omega)) h
  exact Nat.xor_right_inj.mp this

theorem crcFold_ne (l : List Nat) (hl : ∀ b ∈ l, b < 256) :
    ∀ s1 s2, s1 ≠ s2 → s1 < 4294967296 → s2 < 4294967296 →
      l.foldl crcByteStep s1 ≠ l.foldl crcByteStep s2 := by
  induction l with
  | nil => intro s1 s2 hne _ _; simpa using hne
  | cons b t ih =>
    intro s1 s2 hne h1 h2
    rw [List.foldl_cons, List.foldl_cons]
    have hb : b < 256 := hl b (List.mem_cons_self b t)
    exact ih (fun x hx => hl x (List.mem_cons_of_mem b hx)) _ _
      (fun hc => hne (crcByteStep_inj_state h1 h2 hb hc))
      (crcByteStep_lt h1 hb) (crcByteStep_lt h2 hb)

/-- CRC-32 detects every single-bit error: flipping one bit of one byte of
the input always changes the checksum. -/
theorem crc32_flipByte_ne (p : List Nat) (hp : ∀ b ∈ p, b < 256)
    (i j : Nat) (hi : i < p.length) (hj : j < 8) :
    crc32 (flipByte p i j) ≠ crc32 p := by
  have hbyte : p.getD i 0 < 256 := by
    rw [List.getD_eq_getElem p 0 hi]
    exact hp _ (List.getElem_mem hi)
  have hflip : p.getD i 0 ^^^ 2 ^ j < 256 := by
    have h8 : (256 : Nat) = 2 ^ 8 := by norm_num
    rw [h8]
    exact Nat.xor_lt_two_pow (by omega) (by
      have : 2 ^ j ≤ 2 ^ 7 := Nat.pow_le_pow_right (by omega) (by omega)
      omega)
  have hne : p.getD i 0 ^^^ 2 ^ j ≠ p.getD i 0 := by
    intro hc
    have : p.getD i 0 ^^^ 2 ^ j = p.getD i 0 ^^^ 0 := by
      rw [Nat.xor_zero]
      exact hc
    have := Nat.xor_right_inj.mp this
    have hpos : 0 < 2 ^ j := Nat.pos_pow_of_pos j (by omega)
    omega
  rw [flipByte, List.set_eq_take_cons_drop _ hi]
  conv_rhs => rw [show p = p.take i ++ p.getD i 0 :: p.drop (i + 1) from by
    conv_lhs => rw [← List.take_append_drop i p]
    congr 1
    rw [List.getD_eq_getElem p 0 hi]
    exact List.drop_eq_getElem_cons hi]
  rw [crc32, crc32]
  intro hc
  have hcore := Nat.xor_left_inj.mp hc
  rw [List.foldl_append, List.foldl_append, List.foldl_cons, List.foldl_cons] at hcore
  have htake : ∀ b ∈ p.take i, b < 256 := fun b hb => hp b (List.mem_of_mem_take hb)
  have hdrop : ∀ b ∈ p.drop (i + 1), b < 256 := fun b hb => hp b (List.mem_of_mem_drop hb)
  have hs0 : (p.take i).foldl crcByteStep 4294967295 < 4294967296 :=
    crcFold_lt _ htake _ (by omega)
  have hstep : crcByteStep ((p.take i).foldl crcByteStep 4294967295)
      (p.getD i 0 ^^^ 2 ^ j) ≠ crcByteStep ((p.take i).foldl crcByteStep 4294967295)
      (p.getD i 0) :=
    fun hc2 => hne (crcByteStep_inj_byte hs0 hflip hbyte hc2)
  exact crcFold_ne _ hdrop _ _ hstep (crcByteStep_lt hs0 hflip)
    (crcByteStep_lt hs0 hbyte) hcore

/-! ### Frame codec round trip -/

theorem le32_append_take (a : Nat) (X : List Nat) : (le32 a ++ X).take 4 = le32 a := by
  rw [show (4 : Nat) = (le32 a).length from (le32_length a).symm, List.take_left]

/-- Parsing a frame embedded at position `pre.length` of a file recovers the
encoded value and leaves the position at the end of the frame. -/
theorem parseLogEntry_at (pre : List Nat) (v : Value) (suf : List Nat)
    (hwf : wfValue v = true)
    (hlen : (serializePayloadV v).1.length < 4294967296) :
    parseLogEntry (pre ++ (formatLogEntry v ++ suf)) pre.length
      = (.ok v.toR, pre.length + (formatLogEntry v).length) := by
  obtain ⟨p, flag, hpf⟩ : ∃ p flag, serializePayloadV v = (p, flag) :=
    ⟨_, _, rfl⟩
  have hplen : p.length < 4294967296 := by rw [hpf] at hlen; exact hlen
  have hpbytes : ∀ b ∈ p, b < 256 := by
    have := serializePayloadV_lt v hwf
    rw [hpf] at this
    exact this
  have hF : formatLogEntry v = (le32 p.length ++ [flag] ++ le32 (crc32 p)) ++ p := by
    rw [formatLogEntry, hpf]
  have hhdrlen : (le32 p.length ++ [flag] ++ le32 (crc32 p)).length = 9 := by
    simp [le32]
  have hFlen : (formatLogEntry v).length = 9 + p.length := by
    rw [hF, List.length_append, hhdrlen]
  simp only [parseLogEntry, readBytes]
  have hdropPre : (pre ++ (formatLogEntry v ++ suf)).drop pre.length
      = formatLogEntry v ++ suf := List.drop_left pre _
  rw [hdropPre]
  have htake9 : (formatLogEntry v ++ suf).take 9
      = le32 p.length ++ [flag] ++ le32 (crc32 p) := by
    rw [hF, List.append_assoc, ← hhdrlen, List.take_left]
  rw [htake9]
  rw [if_neg (by
    intro hc
    rw [hc] at hhdrlen
    simp at hhdrlen)]
  rw [if_neg (by rw [hhdrlen]; omega)]
  have htake4 : (le32 p.length ++ [flag] ++ le32 (crc32 p)).take 4 = le32 p.length := by
    rw [List.append_assoc]
    exact le32_append_take _ _
  have hgetD : (le32 p.length ++ [flag] ++ le32 (crc32 p)).getD 4 0 = flag := by
    rw [List.append_assoc, List.getD_append_right _ _ _ _ (by rw [le32_length]),
      le32_length]
    rfl
  have hdrop5 : (le32 p.length ++ [flag] ++ le32 (crc32 p)).drop 5 = le32 (crc32 p) := by
    rw [show (5 : Nat) = (le32 p.length ++ [flag]).length from by simp [le32],
      List.drop_left]
  rw [htake4, hgetD, hdrop5, unpackLe32_le32 _ hplen,
    unpackLe32_le32 _ (crc32_lt p hpbytes), hhdrlen]
  have hdropP : (pre ++ (formatLogEntry v ++ suf)).drop (pre.length + 9) = p ++ suf := by
    rw [hF, List.append_assoc, ← List.append_assoc pre]
    rw [show pre.length + 9
        = (pre ++ (le32 p.length ++ [flag] ++ le32 (crc32 p))).length from by
      rw [List.length_append, hhdrlen]]
    rw [List.append_assoc, List.drop_left]
  rw [hdropP, List.take_left]
  rw [if_neg (by omega), if_neg (by simp)]
  cases v with
  | dict kvs =>
    have hflag : flag = 1 := by
      rw [serializePayloadV] at hpf
      exact (Prod.mk.injEq _ _ _ _ |>.mp hpf).2.symm
    have hpv : p = jsonDumps (.obj kvs) := by
      rw [serializePayloadV] at hpf
      exact (Prod.mk.injEq _ _ _ _ |>.mp hpf).1.symm
    rw [hflag, if_pos rfl, hpv, jsonLoads_dumps (.obj kvs) (by
      rw [wfJson]
      rw [wfValue] at hwf
      exact hwf)]
    rw [hFlen, ← hpv]
    show (Except.ok (RVal.fromJson (Json.obj kvs)), pre.length + 9 + p.length)
      = (Except.ok (Value.dict kvs).toR, pre.length + (9 + p.length))
    rw [Nat.add_assoc]
    rfl
  | str s =>
    have hflag : flag = 2 := by
      rw [serializePayloadV] at hpf
      exact (Prod.mk.injEq _ _ _ _ |>.mp hpf).2.symm
    have hpv : p = utf8Encode s := by
      rw [serializePayloadV] at hpf
      exact (Prod.mk.injEq _ _ _ _ |>.mp hpf).1.symm
    rw [hflag, if_neg (by decide), if_pos rfl, hpv,
      utf8Decode_encode (by rw [wfValue] at hwf; exact hwf)]
    rw [hFlen, ← hpv]
    show (Except.ok (RVal.fromStr s), pre.length + 9 + p.length)
      = (Except.ok (Value.str s).toR, pre.length + (9 + p.length))
    rw [Nat.add_assoc]
    rfl

/-! ### Replay over well-formed frames with a torn tail -/

theorem formatLogEntry_length (v : Value) :
    (formatLogEntry v).length = 9 + (serializePayloadV v).1.length := by
  simp [formatLogEntry, le32]
  omega

/-- Parsing a torn frame (full header, short payload) at the end of the file
raises a short-payload corruption error and leaves the position at EOF. -/
theorem parseLogEntry_torn (pre hdrt extra : List Nat) (hhl : hdrt.length = 9)
    (hex : extra.length < unpackLe32 (hdrt.take 4)) :
    parseLogEntry (pre ++ (hdrt ++ extra)) pre.length
      = (.error (.corruption pre.length .shortPayload),
          pre.length + (9 + extra.length)) := by
  simp only [parseLogEntry, readBytes]
  rw [List.drop_left]
  have htake : (hdrt ++ extra).take 9 = hdrt := by
    rw [← hhl, List.take_left]
  rw [htake]
  rw [if_neg (by
    intro hc
    rw [hc] at hhl
    simp at hhl)]
  rw [if_neg (by omega)]
  have hdropP : (pre ++ (hdrt ++ extra)).drop (pre.length + 9) = extra := by
    rw [show pre.length + 9 = (pre ++ hdrt).length from by
      rw [List.length_append, hhl], ← List.append_assoc, List.drop_left]
  rw [hhl, hdropP, List.take_of_length_le (by omega)]
  rw [if_pos hex]
  rw [Prod.mk.injEq]
  exact ⟨rfl, by omega⟩

/-- The replay scan loop, started at the frame boundary `pre.length`, yields
exactly the records of the well-formed frames and stops cleanly at a torn
tail. -/
theorem replayLoop_frames (vs : List Value) :
    (∀ v ∈ vs, wfValue v = true) →
    (∀ v ∈ vs, (serializePayloadV v).1.length < 4294967296) →
    ∀ (torn : List Nat), TornTail torn →
    ∀ (pre : List Nat) (fuel : Nat), vs.length + 2 ≤ fuel →
      replayLoop (pre ++ ((vs.map formatLogEntry).flatten ++ torn))
        (pre ++ ((vs.map formatLogEntry).flatten ++ torn)).length fuel pre.length
        = some (vs.map Value.toR, none) := by
  induction vs with
  | nil =>
    intro _ _ torn ht pre fuel hfuel
    obtain ⟨f, rfl⟩ : ∃ f, fuel = f + 1 := ⟨fuel - 1, by omega⟩
    simp only [List.map_nil, List.flatten_nil, List.nil_append]
    rcases ht with hlt | ⟨hdrt, extra, rfl, hhl, hex⟩
    · rw [replayLoop]
      by_cases h0 : pre.length < (pre ++ torn).length
      · rw [if_pos h0, if_pos (by
          rw [List.length_append] at h0 ⊢
          omega)]
      · rw [if_neg h0]
    · obtain ⟨g, rfl⟩ : ∃ g, f = g + 1 := by
        rcases f with _ | g
        · omega
        · exact ⟨g, rfl⟩
      rw [replayLoop,
        if_pos (by rw [List.length_append, List.length_append]; omega),
        if_neg (by rw [List.length_append, List.length_append]; omega),
        parseLogEntry_torn pre hdrt extra hhl hex]
      show replayLoop (pre ++ (hdrt ++ extra)) (pre ++ (hdrt ++ extra)).length (g + 1)
          (pre.length + (9 + extra.length)) = some ([], none)
      rw [replayLoop,
        if_neg (by rw [List.length_append, List.length_append]; omega)]
  | cons v vs2 ih =>
    intro hwf hlen torn ht pre fuel hfuel
    obtain ⟨f, rfl⟩ : ∃ f, fuel = f + 1 := ⟨fuel - 1, by omega⟩
    have hv9 : (formatLogEntry v).length = 9 + (serializePayloadV v).1.length :=
      formatLogEntry_length v
    rw [List.map_cons, List.flatten_cons, List.append_assoc]
    rw [replayLoop,
      if_pos (by
        simp only [List.length_append]
        omega),
      if_neg (by
        simp only [List.length_append]
        omega),
      parseLogEntry_at pre v ((vs2.map formatLogEntry).flatten ++ torn)
        (hwf v (List.mem_cons_self v vs2)) (hlen v (List.mem_cons_self v vs2))]
    show (replayLoop
        (pre ++ (formatLogEntry v ++ ((vs2.map formatLogEntry).flatten ++ torn)))
        (pre ++ (formatLogEntry v ++ ((vs2.map formatLogEntry).flatten ++ torn))).length
        f (pre.length + (formatLogEntry v).length)).map
          (fun p => (v.toR :: p.1, p.2))
      = some (v.toR :: vs2.map Value.toR, none)
    rw [show pre.length + (formatLogEntry v).length
        = (pre ++ formatLogEntry v).length from (List.length_append pre _).symm,
      ← List.append_assoc pre (formatLogEntry v)]
    rw [ih (fun z hz => hwf z (List.mem_cons_of_mem v hz))
      (fun z hz => hlen z (List.mem_cons_of_mem v hz)) torn ht
      (pre ++ formatLogEntry v) f (by simp only [List.length_cons] at hfuel; omega)]
    rfl

/-- `replay()` on a log consisting of well-formed frames followed by a torn
tail yields exactly the encoded records, in order, and surfaces no error. -/
theorem replay_frames_torn (vs : List Value)
    (hwf : ∀ v ∈ vs, wfValue v = true)
    (hlen : ∀ v ∈ vs, (serializePayloadV v).1.length < 4294967296)
    (torn : List Nat) (ht : TornTail torn) :
    replay ((vs.map formatLogEntry).flatten ++ torn)
        ((vs.map formatLogEntry).flatten ++ torn).length
      = some (vs.map Value.toR, none) := by
  rw [replay]
  by_cases h0 : ((vs.map formatLogEntry).flatten ++ torn).length = 0
  · rw [if_pos h0]
    cases vs with
    | nil =>
      rcases ht with hlt | ⟨hdrt, extra, rfl, hhl, hex⟩
      · rfl
      · rw [List.map_nil, List.flatten_nil, List.nil_append] at h0
        rw [List.length_append] at h0
        omega
    | cons v vs2 =>
      exfalso
      rw [List.map_cons, List.flatten_cons] at h0
      simp only [List.length_append] at h0
      have := formatLogEntry_length v
      omega
  · rw [if_neg h0]
    have := replayLoop_frames vs hwf hlen torn ht []
      (((vs.map formatLogEntry).flatten ++ torn).length + 1) ?_
    · simpa using this
    · rcases vs with _ | ⟨v, vs2⟩
      · simp only [List.length_nil]
        omega
      · have h1 := formatLogEntry_length v
        simp only [List.map_cons, List.flatten_cons, List.length_append,
          List.length_cons] at h0 ⊢
        have h2 : vs2.length * 9 ≤ ((vs2.map formatLogEntry).flatten).length := by
          clear h0 h1 ht hwf hlen
          induction vs2 with
          | nil => simp
          | cons w ws ihw =>
            have := formatLogEntry_length w
            simp only [List.map_cons, List.flatten_cons, List.length_append,
              List.length_cons]
            rw [Nat.succ_mul]
            omega
        omega

/-! ### Decoding a frame with explicit header bytes -/

/-- Fully computed behaviour of `_parse_log_entry` on a frame whose header
bytes are given explicitly and whose payload is complete. -/
theorem parseLogEntry_hdrBytes (s0 s1 s2 s3 g y0 y1 y2 y3 : Nat) (q : List Nat)
    (hq : q.length = s0 + 256 * s1 + 65536 * s2 + 16777216 * s3) :
    parseLogEntry (s0 :: s1 :: s2 :: s3 :: g :: y0 :: y1 :: y2 :: y3 :: q) 0
      = (if crc32 q ≠ y0 + 256 * y1 + 65536 * y2 + 16777216 * y3 then
          (.error (.corruption 0 .checksumMismatch), 9 + q.length)
         else if g = 1 then
          match jsonLoads q with
          | some j => (.ok (.fromJson j), 9 + q.length)
          | none => (.error .jsonDecodeError, 9 + q.length)
         else if g = 2 then
          match utf8Decode q with
          | some s => (.ok (.fromStr s), 9 + q.length)
          | none => (.error .unicodeDecodeError, 9 + q.length)
         else (.error (.corruption 0 .unknownTypeFlag), 9 + q.length)) := by
  simp only [parseLogEntry, readBytes]
  rw [show ((s0 :: s1 :: s2 :: s3 :: g :: y0 :: y1 :: y2 :: y3 :: q).drop 0).take 9
      = [s0, s1, s2, s3, g, y0, y1, y2, y3] from rfl]
  rw [if_neg (by simp), if_neg (by simp)]
  rw [show ([s0, s1, s2, s3, g, y0, y1, y2, y3] : List Nat).take 4
      = [s0, s1, s2, s3] from rfl]
  rw [show unpackLe32 [s0, s1, s2, s3] = s0 + 256 * s1 + 65536 * s2 + 16777216 * s3
      from rfl]
  rw [show ([s0, s1, s2, s3, g, y0, y1, y2, y3] : List Nat).getD 4 0 = g from rfl]
  rw [show ([s0, s1, s2, s3, g, y0, y1, y2, y3] : List Nat).drop 5 = [y0, y1, y2, y3]
      from rfl]
  rw [show unpackLe32 [y0, y1, y2, y3] = y0 + 256 * y1 + 65536 * y2 + 16777216 * y3
      from rfl]
  rw [show (0 + ([s0, s1, s2, s3, g, y0, y1, y2, y3] : List Nat).length) = 9 from rfl]
  rw [show (s0 :: s1 :: s2 :: s3 :: g :: y0 :: y1 :: y2 :: y3 :: q).drop 9 = q from rfl]
  rw [← hq, List.take_length]
  rw [if_neg (by omega)]

/-! ### Single-bit flips -/

theorem flipByte_at4 (x0 x1 x2 x3 g y0 y1 y2 y3 : Nat) (q : List Nat) (j : Nat) :
    flipByte (x0 :: x1 :: x2 :: x3 :: g :: y0 :: y1 :: y2 :: y3 :: q) 4 j
      = x0 :: x1 :: x2 :: x3 :: (g ^^^ 2 ^ j) :: y0 :: y1 :: y2 :: y3 :: q := rfl

theorem flipByte_at5 (x0 x1 x2 x3 g y0 y1 y2 y3 : Nat) (q : List Nat) (j : Nat) :
    flipByte (x0 :: x1 :: x2 :: x3 :: g :: y0 :: y1 :: y2 :: y3 :: q) 5 j
      = x0 :: x1 :: x2 :: x3 :: g :: (y0 ^^^ 2 ^ j) :: y1 :: y2 :: y3 :: q := rfl

theorem flipByte_at6 (x0 x1 x2 x3 g y0 y1 y2 y3 : Nat) (q : List Nat) (j : Nat) :
    flipByte (x0 :: x1 :: x2 :: x3 :: g :: y0 :: y1 :: y2 :: y3 :: q) 6 j
      = x0 :: x1 :: x2 :: x3 :: g :: y0 :: (y1 ^^^ 2 ^ j) :: y2 :: y3 :: q := rfl

theorem flipByte_at7 (x0 x1 x2 x3 g y0 y1 y2 y3 : Nat) (q : List Nat) (j : Nat) :
    flipByte (x0 :: x1 :: x2 :: x3 :: g :: y0 :: y1 :: y2 :: y3 :: q) 7 j
      = x0 :: x1 :: x2 :: x3 :: g :: y0 :: y1 :: (y2 ^^^ 2 ^ j) :: y3 :: q := rfl

theorem flipByte_at8 (x0 x1 x2 x3 g y0 y1 y2 y3 : Nat) (q : List Nat) (j : Nat) :
    flipByte (x0 :: x1 :: x2 :: x3 :: g :: y0 :: y1 :: y2 :: y3 :: q) 8 j
      = x0 :: x1 :: x2 :: x3 :: g :: y0 :: y1 :: y2 :: (y3 ^^^ 2 ^ j) :: q := rfl

theorem flipByte_at_ge9 (x0 x1 x2 x3 g y0 y1 y2 y3 : Nat) (q : List Nat) (k j : Nat) :
    flipByte (x0 :: x1 :: x2 :: x3 :: g :: y0 :: y1 :: y2 :: y3 :: q) (k + 9) j
      = x0 :: x1 :: x2 :: x3 :: g :: y0 :: y1 :: y2 :: y3 :: flipByte q k j := rfl

theorem xor_two_pow_ne (a j : Nat) : a ^^^ 2 ^ j ≠ a := by
  intro h
  have h0 : (2 : Nat) ^ j = 0 := Nat.xor_right_inj.mp (h.trans (Nat.xor_zero a).symm)
  have := Nat.pos_pow_of_pos j (show 0 < 2 by omega)
  omega

theorem xor_byte_lt {a j : Nat} (ha : a < 256) (hj : j < 8) : a ^^^ 2 ^ j < 256 := by
  have h8 : (256 : Nat) = 2 ^ 8 := by norm_num
  rw [h8]
  refine Nat.xor_lt_two_pow (by omega) ?_
  have : 2 ^ j ≤ 2 ^ 7 := Nat.pow_le_pow_right (by omega) (by omega)
  omega

/-- C7 (amended): flipping any single bit of a byte at index 4 or beyond of
an encoded frame — the type flag, the checksum, or the payload — makes
`_parse_log_entry` fail with a corruption error.  (A flip inside the size
field, bytes 0 to 3, can instead make the decode succeed with a different
record, because the CRC covers only the payload.) -/
theorem flip_outside_size_corrupts (v : Value) (hwf : wfValue v = true)
    (hlen : (serializePayloadV v).1.length < 4294967296)
    (i j : Nat) (hi4 : 4 ≤ i) (hi : i < (formatLogEntry v).length) (hj : j < 8) :
    ∃ r, (parseLogEntry (flipByte (formatLogEntry v) i j) 0).1
      = .error (.corruption 0 r) := by
  obtain ⟨p, flag, hpf⟩ : ∃ p flag, serializePayloadV v = (p, flag) := ⟨_, _, rfl⟩
  have hplen : p.length < 4294967296 := by rw [hpf] at hlen; exact hlen
  have hpbytes : ∀ b ∈ p, b < 256 := by
    have := serializePayloadV_lt v hwf
    rw [hpf] at this
    exact this
  have hflag : flag = 1 ∨ flag = 2 := by
    cases v with
    | dict kvs =>
      rw [serializePayloadV] at hpf
      exact Or.inl ((Prod.mk.injEq _ _ _ _ |>.mp hpf).2.symm)
    | str s =>
      rw [serializePayloadV] at hpf
      exact Or.inr ((Prod.mk.injEq _ _ _ _ |>.mp hpf).2.symm)
  have hF : formatLogEntry v
      = p.length % 256 :: p.length / 256 % 256 :: p.length / 65536 % 256 ::
        p.length / 16777216 % 256 :: flag :: crc32 p % 256 :: crc32 p / 256 % 256 ::
        crc32 p / 65536 % 256 :: crc32 p / 16777216 % 256 :: p := by
    simp only [formatLogEntry, hpf, le32, List.cons_append, List.nil_append]
  have hFlen : (formatLogEntry v).length = 9 + p.length := by
    rw [hF]
    simp only [List.length_cons]
    omega
  have hc32 : crc32 p < 4294967296 := crc32_lt p hpbytes
  have ha : p.length % 256 + 256 * (p.length / 256 % 256)
      + 65536 * (p.length / 65536 % 256) + 16777216 * (p.length / 16777216 % 256)
      = p.length := by omega
  have hcdig : crc32 p % 256 + 256 * (crc32 p / 256 % 256)
      + 65536 * (crc32 p / 65536 % 256) + 16777216 * (crc32 p / 16777216 % 256)
      = crc32 p := by omega
  by_cases hlt9 : i < 9
  · interval_cases i
    · -- type flag byte
      refine ⟨.unknownTypeFlag, ?_⟩
      rw [hF, flipByte_at4, parseLogEntry_hdrBytes _ _ _ _ _ _ _ _ _ _ ha.symm]
      rw [if_neg (by omega)]
      have hne1 : ¬(flag ^^^ 2 ^ j = 1) := by
        rcases hflag with rfl | rfl <;> interval_cases j <;> decide
      have hne2 : ¬(flag ^^^ 2 ^ j = 2) := by
        rcases hflag with rfl | rfl <;> interval_cases j <;> decide
      rw [if_neg hne1, if_neg hne2]
    · -- checksum byte 0
      refine ⟨.checksumMismatch, ?_⟩
      rw [hF, flipByte_at5, parseLogEntry_hdrBytes _ _ _ _ _ _ _ _ _ _ ha.symm]
      have hxne := xor_two_pow_ne (crc32 p % 256) j
      rw [if_pos (by omega)]
    · -- checksum byte 1
      refine ⟨.checksumMismatch, ?_⟩
      rw [hF, flipByte_at6, parseLogEntry_hdrBytes _ _ _ _ _ _ _ _ _ _ ha.symm]
      have hxne := xor_two_pow_ne (crc32 p / 256 % 256) j
      have hxb := xor_byte_lt (a := crc32 p / 256 % 256) (by omega) hj
      rw [if_pos (by omega)]
    · -- checksum byte 2
      refine ⟨.checksumMismatch, ?_⟩
      rw [hF, flipByte_at7, parseLogEntry_hdrBytes _ _ _ _ _ _ _ _ _ _ ha.symm]
      have hxne := xor_two_pow_ne (crc32 p / 65536 % 256) j
      have hxb := xor_byte_lt (a := crc32 p / 65536 % 256) (by omega) hj
      rw [if_pos (by omega)]
    · -- checksum byte 3
      refine ⟨.checksumMismatch, ?_⟩
      rw [hF, flipByte_at8, parseLogEntry_hdrBytes _ _ _ _ _ _ _ _ _ _ ha.symm]
      have hxne := xor_two_pow_ne (crc32 p / 16777216 % 256) j
      have hxb := xor_byte_lt (a := crc32 p / 16777216 % 256) (by omega) hj
      rw [if_pos (by omega)]
  · -- payload byte
    obtain ⟨k, rfl⟩ : ∃ k, i = k + 9 := ⟨i - 9, by omega⟩
    have hk : k < p.length := by
      rw [hFlen] at hi
      omega
    refine ⟨.checksumMismatch, ?_⟩
    rw [hF, flipByte_at_ge9, parseLogEntry_hdrBytes _ _ _ _ _ _ _ _ _ _ (by
      rw [flipByte, List.length_set]
      exact ha.symm)]
    have hne := crc32_flipByte_ne p hpbytes k j hk hj
    rw [if_pos (by omega)]

/-! ### Forward progress and termination of the replay loop -/

/-- When a full header is available, `_parse_log_entry` leaves the position
at least `HEADER_SIZE` bytes further, whatever the outcome. -/
theorem parseLogEntry_pos (file : List Nat) (pos : Nat) (h : pos + 9 ≤ file.length) :
    pos + 9 ≤ (parseLogEntry file pos).2 := by
  have hhl : (readBytes file pos 9).length = 9 := by
    rw [readBytes, List.length_take, List.length_drop]
    omega
  simp only [parseLogEntry, hhl]
  repeat' split
  all_goals dsimp only
  all_goals omega

/-- The fuelled scan loop finishes whenever the fuel exceeds the distance to
the snapshot boundary. -/
theorem replayLoop_isSome (file : List Nat) (snap : Nat) (hsnap : snap ≤ file.length) :
    ∀ fuel pos, snap - pos < fuel → (replayLoop file snap fuel pos).isSome = true := by
  intro fuel
  induction fuel with
  | zero => intro pos h; omega
  | succ n ih =>
    intro pos h
    rw [replayLoop]
    by_cases h1 : pos < snap
    · rw [if_pos h1]
      by_cases h2 : pos + 9 > snap
      · rw [if_pos h2]
        rfl
      · rw [if_neg h2]
        have hp9 := parseLogEntry_pos file pos (by omega)
        rcases hr : parseLogEntry file pos with ⟨res, pos2⟩
        have hp : pos + 9 ≤ pos2 := by rw [hr] at hp9; exact hp9
        cases res with
        | ok v =>
          obtain ⟨q, hq⟩ := Option.isSome_iff_exists.mp (ih pos2 (by omega))
          simp only
          rw [hq]
          rfl
        | error e =>
          simp only
          by_cases hc : caughtByReplay e = true
          · rw [if_pos hc]
            exact ih pos2 (by omega)
          · rw [if_neg hc]
            rfl
    · rw [if_neg h1]
      rfl

/-! ### The committer writes batches in drain order -/

theorem commitCycle_fst (q : List Value) (file : List Nat) :
    (commitCycle q file).1 = file ++ (q.map formatLogEntry).flatten := by
  simp only [commitCycle, syncToDisk]
  split
  · rename_i hq
    rw [hq]
    simp
  · rfl

theorem commitMany_eq (batches : List (List Value)) :
    ∀ file, commitMany batches file
      = file ++ ((batches.flatten).map formatLogEntry).flatten := by
  induction batches with
  | nil =>
    intro file
    simp [commitMany]
  | cons b bs ih =>
    intro file
    simp only [commitMany, List.foldl_cons] at ih ⊢
    rw [ih ((commitCycle b file).1), commitCycle_fst]
    simp [List.flatten_append, List.append_assoc]

/-! ### The claims -/

/-- C1: decoding the frame produced by encoding a dict or string value
yields the value back: `_parse_log_entry` on `_format_log_entry(v)` returns
`v`, consuming exactly the frame (round-trip). -/
theorem roundtrip_decode_encode (v : Value) (hwf : wfValue v = true)
    (hlen : (serializePayloadV v).1.length < 4294967296) :
    parseLogEntry (formatLogEntry v) 0
      = (.ok v.toR, (formatLogEntry v).length) := by
  have h := parseLogEntry_at [] v [] hwf hlen
  simpa using h

theorem roundtrip_decode_encode_witness :
    (wfValue (Value.str [104, 105]) = true
      ∧ (serializePayloadV (Value.str [104, 105])).1.length < 4294967296)
    ∧ parseLogEntry (formatLogEntry (Value.str [104, 105])) 0
        = (.ok (Value.str [104, 105]).toR,
            (formatLogEntry (Value.str [104, 105])).length) :=
  ⟨⟨by decide, by decide⟩, roundtrip_decode_encode _ (by decide) (by decide)⟩

/-- C2: refuted — a frame whose checksum verifies, whose type flag is `0x02`
and whose payload byte `0xFF` is not valid UTF-8 makes `_parse_log_entry`
raise `UnicodeDecodeError`, which replay's `except` clause (catching only
`DuraLogCorruptionError` and `json.JSONDecodeError`) does not catch: the
error propagates out of the replay iterator to the caller. -/
theorem unicode_error_escapes_replay :
    replay (le32 1 ++ [2] ++ le32 (crc32 [255]) ++ [255]) 10
        = some ([], some .unicodeDecodeError)
      ∧ caughtByReplay .unicodeDecodeError = false := ⟨rfl, rfl⟩

/-- C3: refuted — `append` performs no type check: a record that is neither
a dict nor a string (here an int) enters the queue without any error; the
failure only happens later, in the committer's `_serialize_payload` call,
as `AttributeError` rather than `TypeError`. -/
theorem append_accepts_any_type :
    append [] (.intVal 5) = .ok [.intVal 5]
      ∧ serializePayload (.intVal 5) = .error .attributeError := ⟨rfl, rfl⟩

/-- C4: refuted — with a 10-byte frame and `snapshot_size = 9`, the boundary
check `tell() + HEADER_SIZE > snapshot_size` passes, the payload byte at
offset 9 is read from beyond the snapshot boundary, and replay yields the
record: the guard protects only the header, not the payload. -/
theorem replay_yields_past_snapshot :
    replay (formatLogEntry (.str [97])) 9 = some ([.fromStr [97]], none)
      ∧ (formatLogEntry (.str [97])).length = 10 := ⟨rfl, rfl⟩

/-- C5: a log of well-formed frames followed by a torn tail — a partial
header, or a full header with fewer payload bytes than announced — replays
to exactly the records of the well-formed frames; nothing is yielded for
the torn tail and no error reaches the caller. -/
theorem replay_ignores_torn_tail (vs : List Value) (torn : List Nat)
    (hwf : ∀ v ∈ vs, wfValue v = true)
    (hlen : ∀ v ∈ vs, (serializePayloadV v).1.length < 4294967296)
    (ht : TornTail torn) :
    replay ((vs.map formatLogEntry).flatten ++ torn)
        ((vs.map formatLogEntry).flatten ++ torn).length
      = some (vs.map Value.toR, none) :=
  replay_frames_torn vs hwf hlen torn ht

theorem replay_ignores_torn_tail_witness :
    ((∀ v ∈ [Value.str [97], Value.str [98]], wfValue v = true)
      ∧ (∀ v ∈ [Value.str [97], Value.str [98]],
          (serializePayloadV v).1.length < 4294967296)
      ∧ TornTail [5, 0, 0, 0, 2, 0, 0, 0, 0, 99])
    ∧ replay (([Value.str [97], Value.str [98]].map formatLogEntry).flatten
          ++ [5, 0, 0, 0, 2, 0, 0, 0, 0, 99])
        ((([Value.str [97], Value.str [98]].map formatLogEntry).flatten
          ++ [5, 0, 0, 0, 2, 0, 0, 0, 0, 99]).length)
      = some ([Value.str [97], Value.str [98]].map Value.toR, none) :=
  ⟨⟨by decide, by decide,
      Or.inr ⟨[5, 0, 0, 0, 2, 0, 0, 0, 0], [99], rfl, rfl, by decide⟩⟩,
    replay_ignores_torn_tail _ _ (by decide) (by decide)
      (Or.inr ⟨[5, 0, 0, 0, 2, 0, 0, 0, 0], [99], rfl, rfl, by decide⟩)⟩

/-- C6: commit cycles write the drained batches as the concatenation of their
frames in FIFO drain order (an empty drain writes nothing), and replaying
the log produced from an empty file yields all appended records in append
order. -/
theorem commit_fifo_replay (batches : List (List Value))
    (hwf : ∀ v ∈ batches.flatten, wfValue v = true)
    (hlen : ∀ v ∈ batches.flatten, (serializePayloadV v).1.length < 4294967296) :
    commitMany batches [] = ((batches.flatten).map formatLogEntry).flatten
      ∧ replay (commitMany batches []) (commitMany batches []).length
        = some ((batches.flatten).map Value.toR, none) := by
  have h1 : commitMany batches [] = ((batches.flatten).map formatLogEntry).flatten := by
    rw [commitMany_eq]
    simp
  refine ⟨h1, ?_⟩
  rw [h1]
  have h2 := replay_frames_torn batches.flatten hwf hlen [] (Or.inl (by decide))
  simpa using h2

theorem commit_fifo_replay_witness :
    ((∀ v ∈ ([[Value.str [97]], []] : List (List Value)).flatten, wfValue v = true)
      ∧ ∀ v ∈ ([[Value.str [97]], []] : List (List Value)).flatten,
          (serializePayloadV v).1.length < 4294967296)
    ∧ (commitMany [[Value.str [97]], []] []
        = ((([[Value.str [97]], []] : List (List Value)).flatten).map formatLogEntry).flatten
      ∧ replay (commitMany [[Value.str [97]], []] [])
          (commitMany [[Value.str [97]], []] []).length
        = some ((([[Value.str [97]], []] : List (List Value)).flatten).map Value.toR, none)) :=
  ⟨⟨by decide, by decide⟩, commit_fifo_replay _ (by decide) (by decide)⟩

set_option maxRecDepth 10000 in
/-- C7 counterexample: flipping bit 3 of byte 0 — the low byte of the size
field — of the frame encoding the string payload `AT\x1ec#\x03\x00\x00\x00`
makes the decode SUCCEED, returning the different record `"A"`: the size
shrinks from 9 to 1 and the stored CRC happens to match the truncated
payload, because the CRC covers only the payload, not the header. -/
theorem flip_size_bit_decodes :
    (parseLogEntry
        (flipByte (formatLogEntry (Value.str [65, 84, 30, 99, 35, 3, 0, 0, 0])) 0 3) 0).1
      = .ok (.fromStr [65]) := rfl

theorem flip_outside_size_corrupts_witness :
    (wfValue (Value.str [97]) = true
      ∧ (serializePayloadV (Value.str [97])).1.length < 4294967296
      ∧ 4 ≤ 4 ∧ 4 < (formatLogEntry (Value.str [97])).length ∧ 0 < 8)
    ∧ ∃ r, (parseLogEntry (flipByte (formatLogEntry (Value.str [97])) 4 0) 0).1
        = .error (.corruption 0 r) :=
  ⟨⟨by decide, by decide, by decide, by decide, by decide⟩,
    flip_outside_size_corrupts _ (by decide) (by decide) 4 0
      (by decide) (by decide) (by decide)⟩

/-- C8 counterexample: `file_path` IS provided — positionally — yet
construction still raises the configuration error and no instance is
created, because `__new__` inspects only `kwargs.get("file_path")` and
never the positional arguments. -/
theorem positional_path_config_error :
    construct none [[97]] none 5 1000 = .error .configurationError := rfl

/-- C8 (amended): construction raises the configuration error exactly when
the `file_path` keyword argument is absent or falsy (`None` or the empty
string); a `file_path` passed positionally does not prevent the error. -/
theorem config_error_iff_no_kw_path (st : Option Inst) (args : List (List Nat))
    (kw : Option (List Nat)) (interval cap : Nat) :
    construct st args kw interval cap = .error .configurationError
      ↔ truthyFilePath kw = false := by
  rw [construct.eq_def]
  cases h : truthyFilePath kw
  · simp [h]
  · cases st <;> simp [h]

/-- C9: `replay()` over any file at least `snapshot_size` long produces a
finite sequence: the scan loop finishes within `snap + 1` iterations,
because each pass either breaks at the snapshot boundary or advances the
position by at least the header size. -/
theorem replay_terminates (file : List Nat) (snap : Nat)
    (hsnap : snap ≤ file.length) : (replay file snap).isSome = true := by
  rw [replay]
  by_cases h : snap = 0
  · rw [if_pos h]
    rfl
  · rw [if_neg h]
    exact replayLoop_isSome file snap hsnap (snap + 1) 0 (by omega)

theorem replay_terminates_witness :
    10 ≤ ([0, 0, 0, 0, 0, 0, 0, 0, 0, 0] : List Nat).length
    ∧ (replay [0, 0, 0, 0, 0, 0, 0, 0, 0, 0] 10).isSome = true :=
  ⟨by decide, replay_terminates _ 10 (by decide)⟩

/-- C10: while an instance exists, constructing `DuraLog` again with any
truthy keyword `file_path` — equal to or different from the existing
instance's — returns the existing instance unchanged and leaves the
singleton slot as it was: the new `file_path`, `commit_interval_seconds`
and `max_queue_size` arguments are silently ignored. -/
theorem singleton_ignores_new_args (i : Inst) (args : List (List Nat))
    (fp : List Nat) (hfp : fp ≠ []) (interval cap : Nat) :
    construct (some i) args (some fp) interval cap = .ok (i, some i) := by
  rw [construct]
  have h : truthyFilePath (some fp) = true := by
    simp [truthyFilePath, hfp]
  rw [h]
  rfl

theorem singleton_ignores_new_args_witness :
    ([98] : List Nat) ≠ []
    ∧ construct (some ⟨[97], 5, 1000⟩) [] (some [98]) 7 9
        = .ok (⟨[97], 5, 1000⟩, some ⟨[97], 5, 1000⟩) :=
  ⟨by decide, singleton_ignores_new_args _ _ _ (by decide) _ _⟩

end DuraLog
